import Mathlib

/-!
# Verification of the boot-loader nvlist codec (stand/libsa/zfs/nvlist.c)

Shallow embedding of the XDR name/value list engine.  Buffers are byte
lists (`List Nat`, each entry intended `< 256`); the host is modelled as
little-endian (`nvh_endian = 1`), matching the x86 boot environment the
file targets, so "native" in-memory 32/64-bit fields are little-endian
byte groups while the wire fields are big-endian.

C reads that the source performs without bounds checks are modelled as
checked reads: an out-of-range access is reported through a dedicated
error value (`faultErr` / `Except.error`), standing for the undefined
out-of-bounds memory access the C program would perform there.
-/

namespace Nv

/-- `NV_ALIGN4` from zfsimpl.h: round up to a multiple of 4
(modelled from the spec, which fixes 4-byte wire alignment). -/
def align4 (x : Nat) : Nat := (x + 3) / 4 * 4

/-- `NV_ALIGN` from zfsimpl.h: round up to a multiple of 8
(modelled from the spec, §4.4: "align here is 8-byte alignment"). -/
def align8 (x : Nat) : Nat := (x + 7) / 8 * 8

/-- Little-endian (host native) bytes of a 32-bit word. -/
def le32 (v : Nat) : List Nat :=
  [v % 256, v / 256 % 256, v / 65536 % 256, v / 16777216 % 256]

/-- Big-endian (XDR wire) bytes of a 32-bit word, as produced by `htobe32`. -/
def be32 (v : Nat) : List Nat :=
  [v / 16777216 % 256, v / 65536 % 256, v / 256 % 256, v % 256]

/-- Little-endian bytes of a 64-bit word (low 32-bit half first). -/
def le64 (v : Nat) : List Nat := le32 (v % 4294967296) ++ le32 (v / 4294967296)

/-- Native (little-endian) read of a 32-bit word from the head of a list;
models `*(unsigned *)p` on the little-endian host.  Short lists read 0 for
the missing bytes; all verified uses are in bounds. -/
def rdU32 (l : List Nat) : Nat :=
  l.getD 0 0 + 256 * l.getD 1 0 + 65536 * l.getD 2 0 + 16777216 * l.getD 3 0

/-- Big-endian read of a 32-bit word from the head of a list; models `be32dec`. -/
def rdBE32 (l : List Nat) : Nat :=
  16777216 * l.getD 0 0 + 65536 * l.getD 1 0 + 256 * l.getD 2 0 + l.getD 3 0

/-- Native (little-endian) read of a 64-bit word; models `*(uint64_t *)p`. -/
def rdU64 (l : List Nat) : Nat := rdU32 l + 4294967296 * rdU32 (l.drop 4)

/-- Overwrite `bs.length` bytes of `buf` starting at offset `off`. -/
def wr (buf : List Nat) (off : Nat) (bs : List Nat) : List Nat :=
  buf.take off ++ bs ++ buf.drop (off + bs.length)

/-- Bounds-checked big-endian 32-bit read at an offset.  `none` models an
out-of-bounds read in the C code (which performs no such check). -/
def rdBE32at (l : List Nat) (off : Nat) : Option Nat :=
  if off + 4 ≤ l.length then some (rdBE32 (l.drop off)) else none

/-! ## Constants

Numeric constants come from the spec (§6.1, §6.2, §7) and from the
`typenames` table in `nvlist_print`, which fixes the `DATA_TYPE_*`
numbering used by the switch statements.  Error numbers are the FreeBSD
errno values returned by the source. -/

def NV_ENCODE_XDR : Nat := 1
def NV_VERSION : Nat := 0
def NV_UNIQUE_NAME : Nat := 1

def DATA_TYPE_BOOLEAN : Nat := 1
def DATA_TYPE_INT32 : Nat := 5
def DATA_TYPE_UINT32 : Nat := 6
def DATA_TYPE_INT64 : Nat := 7
def DATA_TYPE_UINT64 : Nat := 8
def DATA_TYPE_STRING : Nat := 9
def DATA_TYPE_NVLIST : Nat := 19
def DATA_TYPE_NVLIST_ARRAY : Nat := 20
def DATA_TYPE_BOOLEAN_VALUE : Nat := 21

def ENOENT : Nat := 2
def EIOerr : Nat := 5
def ENOMEM : Nat := 12
def EINVAL : Nat := 22
def ENOTSUP : Nat := 45

/-- Sentinel errno used by the model (only) to flag a place where the C
code would perform an undefined out-of-bounds access; no modelled code
path returns it on the well-formed states the theorems talk about. -/
def faultErr : Nat := 14

/-! ## The nvlist handle

`struct nvlist` from libzfs.h (modelled from the spec, §3.1: the header
fields, allocated capacity `nv_asize`, used size `nv_size`, and the data
pointer; the scratch cursor `nv_idx` is not part of the state between
calls and is omitted).  `nv_data` is `none` when the C pointer is NULL;
for owned lists it holds exactly the `nv_size` used bytes, for borrowed
views the bytes of the parent buffer from the view's start. -/
structure Nvlist where
  nvh_encoding : Nat
  nvh_endian : Nat
  nvh_reserved1 : Nat
  nvh_reserved2 : Nat
  nv_asize : Nat
  nv_size : Nat
  nv_data : Option (List Nat)
deriving Repr, DecidableEq

/-- `nvlist_create`: calloc a handle, set XDR encoding and the endian flag,
allocate `sizeof (nvs_data_t)` = 16 zeroed bytes and store the native
version and flag words.  (The C calloc failure paths return NULL; the
model assumes allocation of the fresh list succeeds, as every claim does.) -/
def nvlist_create (flag : Nat) : Nvlist :=
  { nvh_encoding := NV_ENCODE_XDR
    nvh_endian := 1      -- _BYTE_ORDER == _LITTLE_ENDIAN on the modelled host
    nvh_reserved1 := 0
    nvh_reserved2 := 0
    nv_asize := 16
    nv_size := 16
    nv_data := some (le32 NV_VERSION ++ le32 flag ++ List.replicate 8 0) }

/-! ## The pair walk shared by nvlist_remove and nvlist_find

Both functions run the identical loop: read the pair header, stop on a
zero half, read the name length and bytes, locate the aligned pair data,
and test `memcmp(nvp_name->nv_data, name, nvp_name->nv_size) == 0 &&
nvp_data->nv_type == type`.

The `memcmp` compares `nv_size` bytes of the stored name against the
caller's NUL-terminated string; the bytes the caller's pointer makes
accessible are modelled as `name ++ [0]`.  When the stored name is longer
than that, C reads past the argument; the model resolves such a
comparison as a mismatch (`List.take` of the shorter list differs). -/
inductive WalkRes where
  | found (off enc nameSize valOff : Nat)
  | notFound
  | fault
deriving Repr, DecidableEq

def pairWalk (data : List Nat) (name : List Nat) (ty : Nat) :
    Nat → Nat → WalkRes
  | _, 0 => .fault
  | off, fuel+1 =>
    if off + 8 ≤ data.length then
      let enc := rdU32 (data.drop off)
      let dec := rdU32 (data.drop (off + 4))
      if enc = 0 ∨ dec = 0 then .notFound
      else
        if off + 12 ≤ data.length then
          let nameSize := rdU32 (data.drop (off + 8))
          if off + 12 + nameSize ≤ data.length then
            let stored := (data.drop (off + 12)).take nameSize
            let valOff := align4 (off + 12 + nameSize)
            if valOff + 4 ≤ data.length then
              if stored = (name ++ [0]).take nameSize ∧
                  rdU32 (data.drop valOff) = ty then
                .found off enc nameSize valOff
              else
                pairWalk data name ty (off + enc) fuel
            else .fault
          else .fault
        else .fault
    else .fault

/-- `nvlist_remove`: walk the pairs; on a match shift the tail of the used
region left by the pair's `encoded_size` and shrink `nv_size`.
(The `nvl == NULL` / `name == NULL` argument checks of the C function are
outside the value model: the handle and name are values here.) -/
def nvlist_remove (nvl : Nvlist) (name : List Nat) (ty : Nat) : Nat × Nvlist :=
  match nvl.nv_data with
  | none => (EINVAL, nvl)
  | some data =>
    match pairWalk data name ty 8 (data.length + 1) with
    | .notFound => (ENOENT, nvl)
    | .fault => (faultErr, nvl)
    | .found off enc _ _ =>
      -- tail = head + encoded_size; size = nv_data + nv_size - tail;
      -- bcopy(tail, head, size); nv_size -= encoded_size
      if off + enc ≤ nvl.nv_size then
        (0, { nvl with
              nv_size := nvl.nv_size - enc
              nv_data := some (data.take off ++
                (data.drop (off + enc)).take (nvl.nv_size - (off + enc))) })
      else (faultErr, nvl)   -- size_t underflow: wild bcopy in C

/-- Result delivered through `nvlist_find`'s out parameters
(`elementsp`, `valuep`, `sizep`). -/
inductive FindVal where
  | u64 (nelem : Nat) (v : Nat)
  | str (nelem : Nat) (size : Nat) (bytes : List Nat)
  | child (nelem : Nat) (view : Nvlist)
deriving Repr, DecidableEq

/-- `nvlist_find`: same walk as remove; on a match dispatch on the stored
type: UINT64 copies the 8-byte native value, STRING returns the borrowed
size/pointer into the buffer, NVLIST and NVLIST_ARRAY allocate a borrowed
view (`nv_asize = 0`) at the payload; other types return EIO.  (The
malloc-failure ENOMEM branch of the NVLIST case is not modelled; no claim
exercises it.) -/
def nvlist_find (nvl : Nvlist) (name : List Nat) (ty : Nat) :
    Nat × Option FindVal :=
  match nvl.nv_data with
  | none => (EINVAL, none)
  | some data =>
    match pairWalk data name ty 8 (data.length + 1) with
    | .notFound => (ENOENT, none)
    | .fault => (faultErr, none)
    | .found _ _ _ valOff =>
      let nelem := rdU32 (data.drop (valOff + 4))
      if ty = DATA_TYPE_UINT64 then
        (0, some (.u64 nelem (rdU64 (data.drop (valOff + 8)))))
      else if ty = DATA_TYPE_STRING then
        let ssz := rdU32 (data.drop (valOff + 8))
        (0, some (.str nelem ssz ((data.drop (valOff + 12)).take ssz)))
      else if ty = DATA_TYPE_NVLIST ∨ ty = DATA_TYPE_NVLIST_ARRAY then
        (0, some (.child nelem
          { nvl with nv_asize := 0, nv_size := 0,
                     nv_data := some (data.drop (valOff + 8)) }))
      else (EIOerr, none)

/-- The write sequence of `nvlist_add_uint64` after its capacity check:
bzero the slot and the new terminator, then store header, name length,
name (`strlcpy` also writes the NUL), type, nelem and the native 64-bit
value, and grow `nv_size`. -/
def writeU64Pair (nvl : Nvlist) (name : List Nat) (value : Nat)
    (enc dec : Nat) : Nat × Nvlist :=
  let data := nvl.nv_data.getD []
  let pos := nvl.nv_size - 8
  let d0 := data.take pos ++ List.replicate (enc + 8) 0
  let d1 := wr d0 pos (le32 enc)
  let d2 := wr d1 (pos + 4) (le32 dec)
  let d3 := wr d2 (pos + 8) (le32 name.length)
  let d4 := wr d3 (pos + 12) (name ++ [0])
  let d5 := wr d4 (pos + 12 + align4 name.length) (le32 DATA_TYPE_UINT64)
  let d6 := wr d5 (pos + 16 + align4 name.length) (le32 1)
  let d7 := wr d6 (pos + 20 + align4 name.length) (le64 value)
  (0, { nvl with nv_size := nvl.nv_size + enc, nv_data := some d7 })

/-- `nvlist_add_uint64`.  `allocOk` is the allocator oracle: whether the
`realloc` call, if reached, succeeds.  The function returns the errno and
the resulting state (the C function mutates `*nvl` in place).
`flags & NV_UNIQUE_NAME` with `NV_UNIQUE_NAME = 1` is `flags % 2`. -/
def nvlist_add_uint64 (nvl : Nvlist) (name : List Nat) (value : Nat)
    (allocOk : Bool) : Nat × Nvlist :=
  let data0 := nvl.nv_data.getD []          -- C dereferences unconditionally
  -- if (nvs->nvl_nvflag & NV_UNIQUE_NAME) (void) nvlist_remove(...)
  let nvl := if rdU32 (data0.drop 4) % 2 = 1 then
               (nvlist_remove nvl name DATA_TYPE_UINT64).2
             else nvl
  let namelen := name.length
  let valuelen := 8
  let enc := 4 + 4 + 4 + align4 namelen + 4 + 4 + 4 + align8 (valuelen + 1)
  let dec := align8 (4 * 4 + namelen + 1) + valuelen
  if nvl.nv_asize - nvl.nv_size < enc + 8 then
    if allocOk then
      writeU64Pair { nvl with nv_asize := nvl.nv_asize + enc } name value enc dec
    else (ENOMEM, nvl)
  else
    writeU64Pair nvl name value enc dec

/-- The write sequence of `nvlist_add_string` after its capacity check;
the string payload (length word, bytes, `strlcpy` NUL) replaces the
64-bit value. -/
def writeStrPair (nvl : Nvlist) (name value : List Nat)
    (enc dec : Nat) : Nat × Nvlist :=
  let data := nvl.nv_data.getD []
  let pos := nvl.nv_size - 8
  let d0 := data.take pos ++ List.replicate (enc + 8) 0
  let d1 := wr d0 pos (le32 enc)
  let d2 := wr d1 (pos + 4) (le32 dec)
  let d3 := wr d2 (pos + 8) (le32 name.length)
  let d4 := wr d3 (pos + 12) (name ++ [0])
  let d5 := wr d4 (pos + 12 + align4 name.length) (le32 DATA_TYPE_STRING)
  let d6 := wr d5 (pos + 16 + align4 name.length) (le32 1)
  let d7 := wr d6 (pos + 20 + align4 name.length) (le32 value.length)
  let d8 := wr d7 (pos + 24 + align4 name.length) (value ++ [0])
  (0, { nvl with nv_size := nvl.nv_size + enc, nv_data := some d8 })

/-- `nvlist_add_string`; shape identical to `nvlist_add_uint64`. -/
def nvlist_add_string (nvl : Nvlist) (name : List Nat) (value : List Nat)
    (allocOk : Bool) : Nat × Nvlist :=
  let data0 := nvl.nv_data.getD []
  let nvl := if rdU32 (data0.drop 4) % 2 = 1 then
               (nvlist_remove nvl name DATA_TYPE_STRING).2
             else nvl
  let namelen := name.length
  let valuelen := value.length
  let enc := 4 + 4 + 4 + align4 namelen + 4 + 4 + 4 + align8 (valuelen + 1)
  let dec := align8 (4 * 4 + namelen + 1) + align8 (valuelen + 1)
  if nvl.nv_asize - nvl.nv_size < enc + 8 then
    if allocOk then
      writeStrPair { nvl with nv_asize := nvl.nv_asize + enc } name value enc dec
    else (ENOMEM, nvl)
  else
    writeStrPair nvl name value enc dec

/-- `nvlist_next`: EINVAL unless the handle is a borrowed view
(`nv_asize == 0`) with a non-null data pointer; otherwise walk to the
terminator and advance `nv_data` just past its 8 bytes. -/
def nextLoop (data : List Nat) : Nat → Nat → Option Nat
  | _, 0 => none
  | off, fuel+1 =>
    if off + 8 ≤ data.length then
      let enc := rdU32 (data.drop off)
      let dec := rdU32 (data.drop (off + 4))
      if enc ≠ 0 ∧ dec ≠ 0 then nextLoop data (off + enc) fuel
      else some off
    else none

def nvlist_next (nvlOpt : Option Nvlist) : Nat × Option Nvlist :=
  match nvlOpt with
  | none => (EINVAL, none)
  | some nvl =>
    match nvl.nv_data with
    | none => (EINVAL, some nvl)
    | some data =>
      if nvl.nv_asize ≠ 0 then (EINVAL, some nvl)
      else
        match nextLoop data 8 (data.length + 1) with
        | none => (faultErr, some nvl)   -- unterminated walk: OOB in C
        | some off =>
          (0, some { nvl with nv_data := some (data.drop (off + 8)) })

/-! ## Size walk (`nvlist_size`)

The C function gets a pointer just past the envelope header and walks
pair headers by `encoded_size` with no bounds information at all.  The
model checks each 4-byte read against the end of the byte list;
`Except.error ()` records that the C walk would read past the end of the
available bytes. -/

def sizeLoop (stream : List Nat) : Nat → Nat → Except Unit Nat
  | _, 0 => .error ()
  | pair, fuel+1 =>
    match rdBE32at stream pair, rdBE32at stream (pair + 4) with
    | some enc, some dec =>
      if enc ≠ 0 ∧ dec ≠ 0 then sizeLoop stream (pair + enc) fuel
      else .ok (pair + 8)
    | _, _ => .error ()

/-- `nvlist_size` with the big-endian (`_getuint`) XDR ops, as used by
`nvlist_import`.  `stream` is the body (the C pointer is `stream + 4`). -/
def nvlist_size (stream : List Nat) : Except Unit Nat :=
  sizeLoop stream 8 (stream.length + 1)

/-! ## XDR translation passes (`nvlist_xdr_nvlist` / `nvlist_xdr_nvp`)

`nvlist_export` runs the ENCODE pass: each 32-bit field is read in host
order and rewritten big-endian in place; `nvlist_import` runs the DECODE
pass in the opposite direction.  The pair codec advances by the bytes it
translates; the loop then reinterprets whatever lies at the cursor as the
next pair header.

Only the branches a flat boot-environment nvlist can contain are
modelled: BOOLEAN, BOOLEAN_VALUE/INT32, UINT32, INT64/UINT64 and STRING.
The sub-word widening types (BYTE/INT8/UINT8/INT16/UINT16) and the
recursive NVLIST/NVLIST_ARRAY branches return `none` (no claim exercises
them); an unknown tag also returns `none` where the C switch would fall
through without advancing. -/

/-- In-place ENCODE of one 32-bit word (`xdr_u_int`/`xdr_int` with
`_putuint`/`_putint`): read native, store big-endian. -/
def cvtLEtoBE (d : List Nat) (off : Nat) : Option (List Nat) :=
  if off + 4 ≤ d.length then some (wr d off (be32 (rdU32 (d.drop off))))
  else none

/-- In-place DECODE of one 32-bit word (`_getuint` writes the decoded
value back through the buffer pointer): read big-endian, store native,
return the value. -/
def cvtBEtoLE (d : List Nat) (off : Nat) : Option (List Nat × Nat) :=
  if off + 4 ≤ d.length then
    let v := rdBE32 (d.drop off)
    some (wr d off (le32 v), v)
  else none

/-- ENCODE one pair's body (`nvlist_xdr_nvp`), starting at the name;
returns the buffer and the cursor after the value. -/
def xdrEncodeNvp (d : List Nat) (idx : Nat) : Option (List Nat × Nat) :=
  if idx + 4 ≤ d.length then
    let nameSize := rdU32 (d.drop idx)       -- nv_string->nv_size, native
    match cvtLEtoBE d idx with
    | none => none
    | some d1 =>
      let idx1 := idx + align4 (nameSize + 4)
      if idx1 + 8 ≤ d1.length then
        let ty := rdU32 (d1.drop idx1)       -- nvp_data->nv_type, native
        match cvtLEtoBE d1 idx1 with
        | none => none
        | some d2 =>
          match cvtLEtoBE d2 (idx1 + 4) with -- nv_nelem
          | none => none
          | some d3 =>
            let vOff := idx1 + 8
            if ty = DATA_TYPE_BOOLEAN then some (d3, vOff)
            else if ty = DATA_TYPE_BOOLEAN_VALUE ∨ ty = DATA_TYPE_INT32 ∨
                ty = DATA_TYPE_UINT32 then
              (cvtLEtoBE d3 vOff).map (fun d4 => (d4, vOff + 4))
            else if ty = DATA_TYPE_INT64 ∨ ty = DATA_TYPE_UINT64 then
              if vOff + 8 ≤ d3.length then
                let v := rdU64 (d3.drop vOff)
                some (wr d3 vOff (be32 (v / 4294967296) ++ be32 (v % 4294967296)),
                  vOff + 8)
              else none
            else if ty = DATA_TYPE_STRING then
              if vOff + 4 ≤ d3.length then
                let ssz := rdU32 (d3.drop vOff)
                (cvtLEtoBE d3 vOff).map (fun d4 => (d4, vOff + align4 (ssz + 4)))
              else none
            else none
      else none
  else none

/-- The ENCODE loop of `nvlist_xdr_nvlist`: translate the pair whose
header was just translated, then read (native) and translate the header
at the cursor, until a zero half stops the walk. -/
def xdrEncodeLoop (d : List Nat) : Nat → Nat → Nat → Nat → Option (List Nat)
  | _, _, _, 0 => none
  | idx, enc, dec, fuel+1 =>
    if enc ≠ 0 ∧ dec ≠ 0 then
      match xdrEncodeNvp d idx with
      | none => none
      | some (d1, idx1) =>
        if idx1 + 8 ≤ d1.length then
          let e := rdU32 (d1.drop idx1)
          let dd := rdU32 (d1.drop (idx1 + 4))
          match cvtLEtoBE d1 idx1 with
          | none => none
          | some d2 =>
            match cvtLEtoBE d2 (idx1 + 4) with
            | none => none
            | some d3 => xdrEncodeLoop d3 (idx1 + 8) e dd fuel
        else none
    else some d

/-- The ENCODE direction of `nvlist_xdr_nvlist` on a list body. -/
def xdrEncodeList (d : List Nat) : Option (List Nat) :=
  match cvtLEtoBE d 0 with                   -- nvl_version
  | none => none
  | some d1 =>
    match cvtLEtoBE d1 4 with                -- nvl_nvflag
    | none => none
    | some d2 =>
      if 16 ≤ d2.length then
        let e := rdU32 (d2.drop 8)           -- nvph->encoded_size, native
        let dd := rdU32 (d2.drop 12)
        match cvtLEtoBE d2 8 with
        | none => none
        | some d3 =>
          match cvtLEtoBE d3 12 with
          | none => none
          | some d4 => xdrEncodeLoop d4 16 e dd (d.length + 1)
      else none

/-- `nvlist_export`: ENOTSUP unless XDR encoding, then the ENCODE pass
in place. -/
def nvlist_export (nvl : Nvlist) : Nat × Nvlist :=
  if nvl.nvh_encoding ≠ NV_ENCODE_XDR then (ENOTSUP, nvl)
  else
    match xdrEncodeList (nvl.nv_data.getD []) with
    | some d => (0, { nvl with nv_data := some d })
    | none => (faultErr, nvl)   -- walk left the buffer: OOB in C

/-- DECODE one pair's body, starting at the name. -/
def xdrDecodeNvp (d : List Nat) (idx : Nat) : Option (List Nat × Nat) :=
  match cvtBEtoLE d idx with                 -- name size
  | none => none
  | some (d1, nameSize) =>
    let idx1 := idx + align4 (nameSize + 4)
    match cvtBEtoLE d1 idx1 with             -- nv_type
    | none => none
    | some (d2, ty) =>
      match cvtBEtoLE d2 (idx1 + 4) with     -- nv_nelem
      | none => none
      | some (d3, _) =>
        let vOff := idx1 + 8
        if ty = DATA_TYPE_BOOLEAN then some (d3, vOff)
        else if ty = DATA_TYPE_BOOLEAN_VALUE ∨ ty = DATA_TYPE_INT32 ∨
            ty = DATA_TYPE_UINT32 then
          (cvtBEtoLE d3 vOff).map (fun p => (p.1, vOff + 4))
        else if ty = DATA_TYPE_INT64 ∨ ty = DATA_TYPE_UINT64 then
          match cvtBEtoLE d3 vOff with       -- high word
          | none => none
          | some (_, hi) =>
            match cvtBEtoLE d3 (vOff + 4) with
            | none => none
            | some (_, lo) =>
              some (wr d3 vOff (le64 (hi * 4294967296 + lo)), vOff + 8)
        else if ty = DATA_TYPE_STRING then
          match cvtBEtoLE d3 vOff with
          | none => none
          | some (d4, ssz) => some (d4, vOff + align4 (ssz + 4))
        else none

/-- The DECODE loop of `nvlist_xdr_nvlist`. -/
def xdrDecodeLoop (d : List Nat) : Nat → Nat → Nat → Nat → Option (List Nat)
  | _, _, _, 0 => none
  | idx, enc, dec, fuel+1 =>
    if enc ≠ 0 ∧ dec ≠ 0 then
      match xdrDecodeNvp d idx with
      | none => none
      | some (d1, idx1) =>
        match cvtBEtoLE d1 idx1 with
        | none => none
        | some (d2, e) =>
          match cvtBEtoLE d2 (idx1 + 4) with
          | none => none
          | some (d3, dd) => xdrDecodeLoop d3 (idx1 + 8) e dd fuel
    else some d

/-- The DECODE direction of `nvlist_xdr_nvlist` on a list body. -/
def xdrDecodeList (d : List Nat) : Option (List Nat) :=
  match cvtBEtoLE d 0 with
  | none => none
  | some (d1, _) =>
    match cvtBEtoLE d1 4 with
    | none => none
    | some (d2, _) =>
      match cvtBEtoLE d2 8 with
      | none => none
      | some (d3, e) =>
        match cvtBEtoLE d3 12 with
        | none => none
        | some (d4, dd) => xdrDecodeLoop d4 16 e dd (d.length + 1)

/-- Import outcomes.  `badHead` is the explicit NULL return for a
rejected envelope/version/flags; `oob` marks a point where the C code
would read past the end of the supplied bytes (it performs no such
check); `fault` marks the in-place decode walking out of the copied
buffer. -/
inductive ImpErr where
  | badHead
  | oob
  | fault
deriving Repr, DecidableEq

/-- `nvlist_import`: validate the 4-byte envelope plus version and flags
words, size the body with the big-endian walker, copy it, decode in
place.  (malloc failures return NULL in C; the model assumes allocation
succeeds, as the claims do.) -/
def nvlist_import (stream : List Nat) : Except ImpErr Nvlist :=
  if stream.length < 12 then .error .oob
  else if stream.getD 0 0 = NV_ENCODE_XDR ∧
      (stream.getD 1 0 = 0 ∨ stream.getD 1 0 = 1) ∧
      stream.getD 2 0 = 0 ∧ stream.getD 3 0 = 0 ∧
      rdBE32 (stream.drop 4) = NV_VERSION ∧
      rdBE32 (stream.drop 8) = NV_UNIQUE_NAME then
    match nvlist_size (stream.drop 4) with
    | .error _ => .error .oob
    | .ok size =>
      if 4 + size ≤ stream.length then
        let data := (stream.drop 4).take size
        match xdrDecodeList data with
        | none => .error .fault
        | some d =>
          .ok { nvh_encoding := stream.getD 0 0
                nvh_endian := stream.getD 1 0
                nvh_reserved1 := stream.getD 2 0
                nvh_reserved2 := stream.getD 3 0
                nv_asize := size
                nv_size := size
                nv_data := some d }
      else .error .oob          -- bcopy would read past the stream end
  else .error .badHead

/-! ## Abstract pair layer

A `Pair` records the logical fields of one serialized pair: name bytes,
type tag, element count, the stored `decoded_size`, and `vpay`, the bytes
of the slot after the element count (value plus the zero padding the
writer leaves up to `encoded_size`).  `pairBytes` lays a pair out exactly
as the writers do; `serializeBody` is the whole owned buffer.  The
refinement lemmas below show the source operations map `serializeBody`
states to `serializeBody` states. -/

structure Pair where
  name : List Nat
  ptype : Nat
  nelem : Nat
  dec : Nat
  vpay : List Nat
deriving Repr, DecidableEq

/-- Zero padding from a name/string length up to 4-byte alignment. -/
def pad4 (n : Nat) : Nat := align4 n - n

/-- The `encoded_size` a pair occupies: 8-byte header, length word,
aligned name, type and count words, then the payload region. -/
def Pair.enc (p : Pair) : Nat := 20 + align4 p.name.length + p.vpay.length

def pairBytes (p : Pair) : List Nat :=
  le32 p.enc ++ le32 p.dec ++ le32 p.name.length ++ p.name ++
    List.replicate (pad4 p.name.length) 0 ++ le32 p.ptype ++ le32 p.nelem ++
    p.vpay

def pairsBytes : List Pair → List Nat
  | [] => []
  | p :: ps => pairBytes p ++ pairsBytes ps

def encSum : List Pair → Nat
  | [] => 0
  | p :: ps => p.enc + encSum ps

/-- The used bytes of an owned nvlist holding `ps`: native version word,
native flag word, the pairs, the 8-byte terminator. -/
def serializeBody (flag : Nat) (ps : List Pair) : List Nat :=
  le32 NV_VERSION ++ le32 flag ++ pairsBytes ps ++ List.replicate 8 0

/-- The owned handle holding `ps` with capacity `asize`. -/
def mkOwned (asize flag : Nat) (ps : List Pair) : Nvlist :=
  { nvh_encoding := NV_ENCODE_XDR
    nvh_endian := 1
    nvh_reserved1 := 0
    nvh_reserved2 := 0
    nv_asize := asize
    nv_size := 16 + encSum ps
    nv_data := some (serializeBody flag ps) }

/-- Well-formedness of a stored pair: the size fields fit in 32 bits, the
stored `decoded_size` is nonzero (the walkers stop on a zero half), and
the payload keeps 4-byte alignment. -/
def WFpair (p : Pair) : Prop :=
  p.enc < 4294967296 ∧ 0 < p.dec ∧ p.dec < 4294967296 ∧
    p.name.length < 4294967296 ∧ p.ptype < 4294967296 ∧
    p.nelem < 4294967296 ∧ 4 ∣ p.vpay.length

/-- The pair `nvlist_add_uint64` lays down. -/
def mkU64Pair (name : List Nat) (v : Nat) : Pair :=
  { name := name
    ptype := DATA_TYPE_UINT64
    nelem := 1
    dec := align8 (4 * 4 + name.length + 1) + 8
    vpay := le64 v ++ List.replicate 12 0 }

/-- The pair `nvlist_add_string` lays down. -/
def mkStrPair (name value : List Nat) : Pair :=
  { name := name
    ptype := DATA_TYPE_STRING
    nelem := 1
    dec := align8 (4 * 4 + name.length + 1) + align8 (value.length + 1)
    vpay := le32 value.length ++ value ++ List.replicate (pad4 value.length) 0 ++
      List.replicate (align8 (value.length + 1) - align4 value.length) 0 }

/-- The match test of `nvlist_remove` / `nvlist_find` at the abstract
level: `memcmp` over the stored name's length, then the type tag. -/
def pMatch (p : Pair) (name : List Nat) (ty : Nat) : Prop :=
  p.name = (name ++ [0]).take p.name.length ∧ p.ptype = ty

instance (p : Pair) (name : List Nat) (ty : Nat) : Decidable (pMatch p name ty) :=
  inferInstanceAs (Decidable (_ ∧ _))

/-- Split a pair list around the first match, as the walk loop does. -/
def splitAtMatch (name : List Nat) (ty : Nat) :
    List Pair → Option (List Pair × Pair × List Pair)
  | [] => none
  | p :: ps =>
    if pMatch p name ty then some ([], p, ps)
    else (splitAtMatch name ty ps).map fun x => (p :: x.1, x.2.1, x.2.2)

/-! ### Basic length and read lemmas -/

theorem le32_length (v : Nat) : (le32 v).length = 4 := rfl

theorem le64_length (v : Nat) : (le64 v).length = 8 := rfl

theorem align4_ge (n : Nat) : n ≤ align4 n := by unfold align4; omega

theorem align4_lt (n : Nat) : align4 n < n + 4 := by unfold align4; omega

theorem align4_dvd (n : Nat) : 4 ∣ align4 n := Dvd.intro ((n + 3) / 4) (by unfold align4; omega)

theorem align8_ge (n : Nat) : n ≤ align8 n := by unfold align8; omega

theorem align8_lt (n : Nat) : align8 n < n + 8 := by unfold align8; omega

theorem align4_le_align8_succ (n : Nat) : align4 n ≤ align8 (n + 1) := by
  unfold align4 align8; omega

theorem align4_add_left (a n : Nat) (h : a % 4 = 0) :
    align4 (a + n) = a + align4 n := by unfold align4; omega

theorem pairBytes_length (p : Pair) : (pairBytes p).length = p.enc := by
  have h := align4_ge p.name.length
  simp [pairBytes, Pair.enc, pad4, le32]
  omega

theorem pairsBytes_append (a b : List Pair) :
    pairsBytes (a ++ b) = pairsBytes a ++ pairsBytes b := by
  induction a with
  | nil => simp [pairsBytes]
  | cons p ps ih => simp [pairsBytes, ih]

theorem pairsBytes_length (ps : List Pair) :
    (pairsBytes ps).length = encSum ps := by
  induction ps with
  | nil => simp [pairsBytes, encSum]
  | cons p ps ih => simp [pairsBytes, encSum, pairBytes_length, ih]

theorem encSum_append (a b : List Pair) :
    encSum (a ++ b) = encSum a + encSum b := by
  induction a with
  | nil => simp [encSum]
  | cons p ps ih => simp [encSum, ih]; omega

theorem serializeBody_length (flag : Nat) (ps : List Pair) :
    (serializeBody flag ps).length = 16 + encSum ps := by
  simp [serializeBody, le32, pairsBytes_length]; omega

theorem rdU32_le32 (v : Nat) (r : List Nat) (h : v < 4294967296) :
    rdU32 (le32 v ++ r) = v := by
  simp [rdU32, le32, List.getD]; omega

theorem rdBE32_be32 (v : Nat) (r : List Nat) (h : v < 4294967296) :
    rdBE32 (be32 v ++ r) = v := by
  simp [rdBE32, be32, List.getD]; omega

theorem drop4_cons4 (a b c d : Nat) (r : List Nat) :
    (a :: b :: c :: d :: r).drop 4 = r := rfl

theorem le32_append_drop4 (v : Nat) (r : List Nat) : (le32 v ++ r).drop 4 = r := rfl

theorem rdU64_le64 (v : Nat) (r : List Nat) (h : v < 18446744073709551616) :
    rdU64 (le64 v ++ r) = v := by
  have h1 : le64 v ++ r = le32 (v % 4294967296) ++ (le32 (v / 4294967296) ++ r) := by
    simp [le64]
  rw [h1, rdU64, rdU32_le32 _ _ (by omega), le32_append_drop4,
    rdU32_le32 _ _ (by omega)]
  omega

theorem wr_at (a r bs : List Nat) :
    wr (a ++ r) a.length bs = a ++ bs ++ r.drop bs.length := by
  unfold wr
  rw [List.take_left]
  have h2 : (a ++ r).drop (a.length + bs.length) = r.drop bs.length := by
    rw [← List.drop_drop, List.drop_left]
  rw [h2, List.append_assoc]

theorem drop_add_offset (data : List Nat) (off k : Nat) :
    data.drop (off + k) = (data.drop off).drop k := by
  rw [List.drop_drop]

theorem drop_len_append (x r : List Nat) (n : Nat) (h : x.length = n) :
    (x ++ r).drop n = r := by subst h; exact List.drop_left x r

theorem take_len_append (x r : List Nat) (n : Nat) (h : x.length = n) :
    (x ++ r).take n = x := by subst h; exact List.take_left x r

/-! ### Reading the fields of the pair at an offset -/

theorem pair_enc_ge (p : Pair) : 20 ≤ p.enc := by
  unfold Pair.enc; omega

theorem pair_enc_mod4 (p : Pair) (h : 4 ∣ p.vpay.length) : p.enc % 4 = 0 := by
  obtain ⟨k, hk⟩ := h
  obtain ⟨m, hm⟩ := align4_dvd p.name.length
  unfold Pair.enc; omega

theorem firstPair_reads (data : List Nat) (off : Nat) (p : Pair) (R : List Nat)
    (h : data.drop off = pairBytes p ++ R) (hWF : WFpair p) (h4 : off % 4 = 0) :
    rdU32 (data.drop off) = p.enc ∧
    rdU32 (data.drop (off + 4)) = p.dec ∧
    rdU32 (data.drop (off + 8)) = p.name.length ∧
    (data.drop (off + 12)).take p.name.length = p.name ∧
    align4 (off + 12 + p.name.length) = off + 12 + align4 p.name.length ∧
    data.drop (off + 12 + align4 p.name.length) =
      le32 p.ptype ++ (le32 p.nelem ++ (p.vpay ++ R)) ∧
    data.length = off + p.enc + R.length := by
  obtain ⟨henc, hdec0, hdec, hnm, hty, hne, hv4⟩ := hWF
  have h0 : data.drop off = le32 p.enc ++ (le32 p.dec ++ (le32 p.name.length ++
      ((p.name ++ List.replicate (pad4 p.name.length) 0) ++
        (le32 p.ptype ++ (le32 p.nelem ++ (p.vpay ++ R)))))) := by
    simpa [pairBytes, List.append_assoc] using h
  have hlen : data.length = off + p.enc + R.length := by
    have h1 : (data.drop off).length = data.length - off := by simp
    rw [h] at h1
    have h2 : (pairBytes p ++ R).length = p.enc + R.length := by
      simp [pairBytes_length]
    have h3 := pair_enc_ge p
    omega
  have hd4 : data.drop (off + 4) = le32 p.dec ++ (le32 p.name.length ++
      ((p.name ++ List.replicate (pad4 p.name.length) 0) ++
        (le32 p.ptype ++ (le32 p.nelem ++ (p.vpay ++ R))))) := by
    rw [drop_add_offset, h0]; rfl
  have hd8 : data.drop (off + 8) = le32 p.name.length ++
      ((p.name ++ List.replicate (pad4 p.name.length) 0) ++
        (le32 p.ptype ++ (le32 p.nelem ++ (p.vpay ++ R)))) := by
    rw [drop_add_offset, h0]; rfl
  have hd12 : data.drop (off + 12) =
      (p.name ++ List.replicate (pad4 p.name.length) 0) ++
        (le32 p.ptype ++ (le32 p.nelem ++ (p.vpay ++ R))) := by
    rw [drop_add_offset, h0]; rfl
  have hpadlen : (p.name ++ List.replicate (pad4 p.name.length) 0).length =
      align4 p.name.length := by
    have := align4_ge p.name.length
    simp [pad4]; omega
  refine ⟨?_, ?_, ?_, ?_, ?_, ?_, hlen⟩
  · rw [h0, rdU32_le32 _ _ henc]
  · rw [hd4, rdU32_le32 _ _ hdec]
  · rw [hd8, rdU32_le32 _ _ hnm]
  · rw [hd12, List.append_assoc, take_len_append _ _ _ rfl]
  · exact align4_add_left (off + 12) p.name.length (by omega)
  · have hsplit : data.drop (off + 12 + align4 p.name.length) =
        (data.drop (off + 12)).drop (align4 p.name.length) :=
      drop_add_offset data (off + 12) (align4 p.name.length)
    rw [hsplit, hd12, drop_len_append _ _ _ hpadlen]

theorem rdU32_zeros8 : rdU32 (List.replicate 8 0) = 0 := rfl

/-- The shared loop of `nvlist_remove` and `nvlist_find` on a buffer whose
suffix at `off` is a well-formed pair run followed by the terminator:
it reports the first matching pair at its accumulated offset, or
`notFound` at the terminator. -/
theorem pairWalk_spec (data name : List Nat) (ty : Nat) :
    ∀ (ps : List Pair) (off fuel : Nat),
      data.drop off = pairsBytes ps ++ List.replicate 8 0 →
      (∀ p ∈ ps, WFpair p) → off % 4 = 0 → ps.length < fuel →
      pairWalk data name ty off fuel =
        match splitAtMatch name ty ps with
        | none => .notFound
        | some (a, p, _) =>
          .found (off + encSum a) p.enc p.name.length
            (off + encSum a + 12 + align4 p.name.length) := by
  intro ps
  induction ps with
  | nil =>
    intro off fuel hdrop hWF h4 hfuel
    obtain ⟨f, rfl⟩ : ∃ f, fuel = f + 1 := ⟨fuel - 1, by omega⟩
    have hdrop0 : data.drop off = List.replicate 8 0 := by
      simpa [pairsBytes] using hdrop
    have hlen : data.length = off + 8 := by
      have h1 : (data.drop off).length = data.length - off := by simp
      rw [hdrop0] at h1
      simp at h1
      omega
    have e1 : rdU32 (data.drop off) = 0 := by rw [hdrop0]; rfl
    simp only [pairWalk]
    rw [if_pos (by omega : off + 8 ≤ data.length)]
    simp only [e1, splitAtMatch]
    simp
  | cons p tl ih =>
    intro off fuel hdrop hWF h4 hfuel
    obtain ⟨f, rfl⟩ : ∃ f, fuel = f + 1 := ⟨fuel - 1, by omega⟩
    have hWFp : WFpair p := hWF p (by simp)
    have hdropP : data.drop off = pairBytes p ++ (pairsBytes tl ++ List.replicate 8 0) := by
      simpa [pairsBytes, List.append_assoc] using hdrop
    obtain ⟨e1, e2, e3, e4, e5, e6, hlen⟩ :=
      firstPair_reads data off p _ hdropP hWFp h4
    have hencge := pair_enc_ge p
    have hname_le : p.name.length ≤ align4 p.name.length := align4_ge _
    have henc_eq : p.enc = 20 + align4 p.name.length + p.vpay.length := rfl
    have e7 : rdU32 (data.drop (align4 (off + 12 + p.name.length))) = p.ptype := by
      rw [e5, e6, rdU32_le32 _ _ hWFp.2.2.2.2.1]
    simp only [pairWalk]
    rw [if_pos (by omega : off + 8 ≤ data.length)]
    simp only [e1, e2]
    rw [if_neg (by
      have := hWFp.2.1
      omega : ¬(p.enc = 0 ∨ p.dec = 0))]
    rw [if_pos (by omega : off + 12 ≤ data.length)]
    simp only [e3]
    rw [if_pos (by omega : off + 12 + p.name.length ≤ data.length)]
    rw [if_pos (by rw [e5]; omega : align4 (off + 12 + p.name.length) + 4 ≤ data.length)]
    simp only [e4, e7]
    by_cases hm : pMatch p name ty
    · rw [if_pos ⟨hm.1, hm.2⟩]
      simp only [splitAtMatch, if_pos hm]
      simp [e5, encSum]
    · rw [if_neg (fun hc => hm ⟨hc.1, hc.2⟩)]
      have hdropN : data.drop (off + p.enc) = pairsBytes tl ++ List.replicate 8 0 := by
        rw [drop_add_offset, hdropP, drop_len_append _ _ _ (pairBytes_length p)]
      have h4N : (off + p.enc) % 4 = 0 := by
        have := pair_enc_mod4 p hWFp.2.2.2.2.2.2
        omega
      have htl : ∀ q ∈ tl, WFpair q := fun q hq => hWF q (by simp [hq])
      rw [ih (off + p.enc) f hdropN htl h4N (by simp at hfuel; omega)]
      simp only [splitAtMatch, if_neg hm]
      cases hsp : splitAtMatch name ty tl with
      | none => simp
      | some x =>
        obtain ⟨a, q, b⟩ := x
        simp only [Option.map_some]
        have : off + p.enc + encSum a = off + encSum (p :: a) := by
          simp [encSum]; omega
        simp [encSum]
        omega

theorem encSum_ge_len (ps : List Pair) : ps.length ≤ encSum ps := by
  induction ps with
  | nil => simp [encSum]
  | cons p tl ih =>
    have := pair_enc_ge p
    simp [encSum]
    omega

theorem serializeBody_drop8 (flag : Nat) (ps : List Pair) :
    (serializeBody flag ps).drop 8 = pairsBytes ps ++ List.replicate 8 0 := rfl

theorem splitAtMatch_parts (name : List Nat) (ty : Nat) :
    ∀ ps a p b, splitAtMatch name ty ps = some (a, p, b) → ps = a ++ p :: b := by
  intro ps
  induction ps with
  | nil => intro a p b h; simp [splitAtMatch] at h
  | cons q tl ih =>
    intro a p b h
    by_cases hq : pMatch q name ty
    · rw [splitAtMatch, if_pos hq] at h
      obtain ⟨rfl, rfl, rfl⟩ : [] = a ∧ q = p ∧ tl = b := by
        injection h with h1
        exact ⟨congrArg Prod.fst h1, congrArg (Prod.fst ∘ Prod.snd) h1,
          congrArg (Prod.snd ∘ Prod.snd) h1⟩
      simp
    · rw [splitAtMatch, if_neg hq] at h
      cases hsp : splitAtMatch name ty tl with
      | none => rw [hsp] at h; simp at h
      | some x =>
        obtain ⟨a', p', b'⟩ := x
        rw [hsp] at h
        obtain ⟨rfl, rfl, rfl⟩ : q :: a' = a ∧ p' = p ∧ b' = b := by
          injection h with h1
          exact ⟨congrArg Prod.fst h1, congrArg (Prod.fst ∘ Prod.snd) h1,
            congrArg (Prod.snd ∘ Prod.snd) h1⟩
        simp [ih a' p' b' hsp]


theorem splitAtMatch_match (name : List Nat) (ty : Nat) :
    ∀ ps xa q0 xb, splitAtMatch name ty ps = some (xa, q0, xb) →
      pMatch q0 name ty := by
  intro ps
  induction ps with
  | nil => intro xa q0 xb h; simp [splitAtMatch] at h
  | cons r tl ih =>
    intro xa q0 xb h
    by_cases hr : pMatch r name ty
    · rw [splitAtMatch, if_pos hr] at h
      injection h with h1
      have hrq : r = q0 := congrArg (Prod.fst ∘ Prod.snd) h1
      rw [← hrq]
      exact hr
    · rw [splitAtMatch, if_neg hr] at h
      cases hsp2 : splitAtMatch name ty tl with
      | none => rw [hsp2] at h; simp at h
      | some y =>
        obtain ⟨ya, yp, yb⟩ := y
        rw [hsp2] at h
        injection h with h1
        have hyq : yp = q0 := congrArg (Prod.fst ∘ Prod.snd) h1
        rw [← hyq]
        exact ih ya yp yb hsp2

/-- `nvlist_remove` on an owned buffer: drops the first matching pair, or
returns ENOENT leaving the state alone. -/
theorem remove_refine (asize flag : Nat) (ps : List Pair) (name : List Nat)
    (ty : Nat) (hWF : ∀ p ∈ ps, WFpair p) :
    nvlist_remove (mkOwned asize flag ps) name ty =
      match splitAtMatch name ty ps with
      | none => (ENOENT, mkOwned asize flag ps)
      | some (a, p, b) => (0, mkOwned asize flag (a ++ b)) := by
  have hdata : (mkOwned asize flag ps).nv_data = some (serializeBody flag ps) := rfl
  have hlen : (serializeBody flag ps).length = 16 + encSum ps :=
    serializeBody_length flag ps
  have hfuel : ps.length < (serializeBody flag ps).length + 1 := by
    have := encSum_ge_len ps
    omega
  have hwalk := pairWalk_spec (serializeBody flag ps) name ty ps 8
    ((serializeBody flag ps).length + 1) (serializeBody_drop8 flag ps) hWF
    (by omega) hfuel
  simp only [nvlist_remove, hwalk, mkOwned]
  cases hsp : splitAtMatch name ty ps with
  | none => rfl
  | some x =>
    obtain ⟨a, p, b⟩ := x
    dsimp only
    have hps : ps = a ++ p :: b := splitAtMatch_parts name ty ps a p b hsp
    have hWFp : WFpair p := hWF p (by rw [hps]; simp)
    have hencs : encSum ps = encSum a + (p.enc + encSum b) := by
      rw [hps, encSum_append]; simp [encSum]
    have hbound : 8 + encSum a + p.enc ≤ 16 + encSum ps := by omega
    rw [if_pos hbound]
    have hsplitdata : serializeBody flag ps =
        (le32 NV_VERSION ++ le32 flag ++ pairsBytes a) ++
          (pairBytes p ++ (pairsBytes b ++ List.replicate 8 0)) := by
      rw [hps]
      simp [serializeBody, pairsBytes_append, pairsBytes, List.append_assoc]
    have hpre_len : (le32 NV_VERSION ++ le32 flag ++ pairsBytes a).length =
        8 + encSum a := by
      simp [le32, pairsBytes_length]
      omega
    have htake : (serializeBody flag ps).take (8 + encSum a) =
        le32 NV_VERSION ++ le32 flag ++ pairsBytes a := by
      rw [hsplitdata, take_len_append _ _ _ hpre_len]
    have hdrop : (serializeBody flag ps).drop (8 + encSum a + p.enc) =
        pairsBytes b ++ List.replicate 8 0 := by
      rw [drop_add_offset, hsplitdata, drop_len_append _ _ _ hpre_len,
        drop_len_append _ _ _ (pairBytes_length p)]
    have hrest_len : (pairsBytes b ++ List.replicate 8 0).length = 8 + encSum b := by
      simp [pairsBytes_length]
      omega
    have htakerest : (pairsBytes b ++ List.replicate 8 0).take
        (16 + encSum ps - (8 + encSum a + p.enc)) =
          pairsBytes b ++ List.replicate 8 0 := by
      have : 16 + encSum ps - (8 + encSum a + p.enc) = 8 + encSum b := by omega
      rw [this, ← hrest_len, List.take_length]
    rw [htake, hdrop, htakerest]
    have hout : le32 NV_VERSION ++ le32 flag ++ pairsBytes a ++
        (pairsBytes b ++ List.replicate 8 0) = serializeBody flag (a ++ b) := by
      simp [serializeBody, pairsBytes_append, List.append_assoc]
    have hsz : 16 + encSum ps - p.enc = 16 + encSum (a ++ b) := by
      rw [encSum_append]; omega
    rw [hout, hsz]

/-! ### The writers -/

theorem wr_zeros0 (P : List Nat) (m k : Nat) (bs : List Nat) (n : Nat)
    (hn : n = P.length) (hk : m = bs.length + k) :
    wr (P ++ List.replicate m 0) n bs = (P ++ bs) ++ List.replicate k 0 := by
  subst hn
  unfold wr
  rw [take_len_append _ _ _ rfl]
  have hd : (P ++ List.replicate m 0).drop (P.length + bs.length) =
      List.replicate k 0 := by
    rw [List.drop_append, List.drop_replicate]
    congr 1
    omega
  rw [hd]
  try simp [List.append_assoc]

theorem wr_zerosj (P : List Nat) (m j k : Nat) (bs : List Nat) (n : Nat)
    (hn : n = P.length + j) (hk : m = j + bs.length + k) :
    wr (P ++ List.replicate m 0) n bs =
      ((P ++ List.replicate j 0) ++ bs) ++ List.replicate k 0 := by
  subst hn
  unfold wr
  rw [List.take_append, List.take_replicate, Nat.min_eq_left (by omega)]
  have hd : (P ++ List.replicate m 0).drop (P.length + j + bs.length) =
      List.replicate k 0 := by
    have he : P.length + j + bs.length = P.length + (j + bs.length) := by omega
    rw [he, List.drop_append, List.drop_replicate]
    congr 1
    omega
  rw [hd]
  try simp [List.append_assoc]

theorem snoc_zero_merge (P x : List Nat) (k : Nat) :
    (P ++ (x ++ [0])) ++ List.replicate k 0 = (P ++ x) ++ List.replicate (k + 1) 0 := by
  simp [List.append_assoc, List.replicate_succ]

/-- The write sequence of `nvlist_add_uint64` appends exactly the
`mkU64Pair` layout and a fresh terminator. -/
theorem writeU64Pair_spec (a flag : Nat) (ps : List Pair) (name : List Nat)
    (v enc dec : Nat) (henc : enc = 40 + align4 name.length)
    (hdec : dec = align8 (4 * 4 + name.length + 1) + 8) :
    writeU64Pair (mkOwned a flag ps) name v enc dec =
      (0, mkOwned a flag (ps ++ [mkU64Pair name v])) := by
  have hN := align4_ge name.length
  have hpadlen : align4 name.length = name.length + pad4 name.length := by
    unfold pad4; omega
  simp only [writeU64Pair, mkOwned, Option.getD_some]
  have hpos : 16 + encSum ps - 8 = 8 + encSum ps := by omega
  rw [hpos]
  have hP0 : (le32 NV_VERSION ++ le32 flag ++ pairsBytes ps).length = 8 + encSum ps := by
    simp [le32, pairsBytes_length]
    omega
  have htake : (serializeBody flag ps).take (8 + encSum ps) =
      le32 NV_VERSION ++ le32 flag ++ pairsBytes ps := by
    have hser : serializeBody flag ps =
        (le32 NV_VERSION ++ le32 flag ++ pairsBytes ps) ++ List.replicate 8 0 := by
      simp [serializeBody, List.append_assoc]
    rw [hser, take_len_append _ _ _ hP0]
  rw [htake]
  set P0 := le32 NV_VERSION ++ le32 flag ++ pairsBytes ps with hG
  rw [wr_zeros0 P0 (enc + 8) (enc + 4) (le32 enc) (8 + encSum ps)
    (by omega) (by simp [le32] <;> omega)]
  rw [wr_zeros0 (P0 ++ le32 enc) (enc + 4) enc (le32 dec) (8 + encSum ps + 4)
    (by simp [le32] <;> omega) (by simp [le32] <;> omega)]
  rw [wr_zeros0 ((P0 ++ le32 enc) ++ le32 dec) enc (36 + align4 name.length)
    (le32 name.length) (8 + encSum ps + 8)
    (by simp [le32] <;> omega) (by simp [le32] <;> omega)]
  rw [wr_zeros0 (((P0 ++ le32 enc) ++ le32 dec) ++ le32 name.length)
    (36 + align4 name.length) (35 + pad4 name.length) (name ++ [0])
    (8 + encSum ps + 12) (by simp [le32] <;> omega) (by simp <;> omega)]
  rw [snoc_zero_merge]
  rw [wr_zerosj ((((P0 ++ le32 enc) ++ le32 dec) ++ le32 name.length) ++ name)
    (35 + pad4 name.length + 1) (pad4 name.length) 32 (le32 DATA_TYPE_UINT64)
    (8 + encSum ps + 12 + align4 name.length)
    (by simp [le32] <;> omega) (by simp [le32] <;> omega)]
  rw [wr_zeros0 (((((P0 ++ le32 enc) ++ le32 dec) ++ le32 name.length) ++ name ++
      List.replicate (pad4 name.length) 0) ++ le32 DATA_TYPE_UINT64) 32 28 (le32 1)
    (8 + encSum ps + 16 + align4 name.length)
    (by simp [le32] <;> omega) (by simp [le32] <;> omega)]
  rw [wr_zeros0 ((((((P0 ++ le32 enc) ++ le32 dec) ++ le32 name.length) ++ name ++
      List.replicate (pad4 name.length) 0) ++ le32 DATA_TYPE_UINT64) ++ le32 1)
    28 20 (le64 v) (8 + encSum ps + 20 + align4 name.length)
    (by simp [le32] <;> omega) (by simp [le64_length] <;> omega)]
  have hsplit20 : List.replicate 20 (0 : Nat) =
      List.replicate 12 0 ++ List.replicate 8 0 := rfl
  rw [hsplit20]
  have hpb : pairBytes (mkU64Pair name v) =
      le32 enc ++ (le32 dec ++ (le32 name.length ++ (name ++
        (List.replicate (pad4 name.length) 0 ++ (le32 DATA_TYPE_UINT64 ++
          (le32 1 ++ (le64 v ++ List.replicate 12 0))))))) := by
    have h1 : (mkU64Pair name v).enc = enc := by
      rw [henc]
      simp [mkU64Pair, Pair.enc, le64_length]
      omega
    have h2 : (mkU64Pair name v).dec = dec := by
      rw [hdec]
      simp [mkU64Pair]
    rw [pairBytes, h1, h2]
    simp [mkU64Pair, List.append_assoc]
  have hser2 : serializeBody flag (ps ++ [mkU64Pair name v]) =
      P0 ++ (pairBytes (mkU64Pair name v) ++ List.replicate 8 0) := by
    rw [hG]
    simp [serializeBody, pairsBytes_append, pairsBytes, List.append_assoc]
  have hencp : encSum (ps ++ [mkU64Pair name v]) = encSum ps + enc := by
    rw [encSum_append, henc]
    simp [encSum, mkU64Pair, Pair.enc, le64_length]
    omega
  simp only [mkOwned, hser2, hpb, hencp]
  simp [List.append_assoc]
  omega

/-- The write sequence of `nvlist_add_string` appends exactly the
`mkStrPair` layout and a fresh terminator. -/
theorem writeStrPair_spec (a flag : Nat) (ps : List Pair) (name value : List Nat)
    (enc dec : Nat)
    (henc : enc = 24 + align4 name.length + align8 (value.length + 1))
    (hdec : dec = align8 (4 * 4 + name.length + 1) + align8 (value.length + 1)) :
    writeStrPair (mkOwned a flag ps) name value enc dec =
      (0, mkOwned a flag (ps ++ [mkStrPair name value])) := by
  have hN := align4_ge name.length
  have hpadlen : align4 name.length = name.length + pad4 name.length := by
    unfold pad4; omega
  have hV := align4_ge value.length
  have hpadv : align4 value.length = value.length + pad4 value.length := by
    unfold pad4; omega
  have hW8 := align4_le_align8_succ value.length
  obtain ⟨Wv, hWv⟩ : ∃ Wv, align8 (value.length + 1) = value.length + 1 + Wv :=
    ⟨align8 (value.length + 1) - (value.length + 1),
      by have := align8_ge (value.length + 1); omega⟩
  simp only [writeStrPair, mkOwned, Option.getD_some]
  have hpos : 16 + encSum ps - 8 = 8 + encSum ps := by omega
  rw [hpos]
  have hP0 : (le32 NV_VERSION ++ le32 flag ++ pairsBytes ps).length = 8 + encSum ps := by
    simp [le32, pairsBytes_length]
    omega
  have htake : (serializeBody flag ps).take (8 + encSum ps) =
      le32 NV_VERSION ++ le32 flag ++ pairsBytes ps := by
    have hser : serializeBody flag ps =
        (le32 NV_VERSION ++ le32 flag ++ pairsBytes ps) ++ List.replicate 8 0 := by
      simp [serializeBody, List.append_assoc]
    rw [hser, take_len_append _ _ _ hP0]
  rw [htake]
  set P0 := le32 NV_VERSION ++ le32 flag ++ pairsBytes ps with hG
  rw [wr_zeros0 P0 (enc + 8) (enc + 4) (le32 enc) (8 + encSum ps)
    (by omega) (by simp [le32] <;> omega)]
  rw [wr_zeros0 (P0 ++ le32 enc) (enc + 4) enc (le32 dec) (8 + encSum ps + 4)
    (by simp [le32] <;> omega) (by simp [le32] <;> omega)]
  rw [wr_zeros0 ((P0 ++ le32 enc) ++ le32 dec) enc
    (20 + align4 name.length + align8 (value.length + 1))
    (le32 name.length) (8 + encSum ps + 8)
    (by simp [le32] <;> omega) (by simp [le32] <;> omega)]
  rw [wr_zeros0 (((P0 ++ le32 enc) ++ le32 dec) ++ le32 name.length)
    (20 + align4 name.length + align8 (value.length + 1))
    (19 + pad4 name.length + align8 (value.length + 1)) (name ++ [0])
    (8 + encSum ps + 12) (by simp [le32] <;> omega) (by simp <;> omega)]
  rw [snoc_zero_merge]
  rw [wr_zerosj ((((P0 ++ le32 enc) ++ le32 dec) ++ le32 name.length) ++ name)
    (19 + pad4 name.length + align8 (value.length + 1) + 1) (pad4 name.length)
    (16 + align8 (value.length + 1)) (le32 DATA_TYPE_STRING)
    (8 + encSum ps + 12 + align4 name.length)
    (by simp [le32] <;> omega) (by simp [le32] <;> omega)]
  rw [wr_zeros0 (((((P0 ++ le32 enc) ++ le32 dec) ++ le32 name.length) ++ name ++
      List.replicate (pad4 name.length) 0) ++ le32 DATA_TYPE_STRING)
    (16 + align8 (value.length + 1)) (12 + align8 (value.length + 1)) (le32 1)
    (8 + encSum ps + 16 + align4 name.length)
    (by simp [le32] <;> omega) (by simp [le32] <;> omega)]
  rw [wr_zeros0 ((((((P0 ++ le32 enc) ++ le32 dec) ++ le32 name.length) ++ name ++
      List.replicate (pad4 name.length) 0) ++ le32 DATA_TYPE_STRING) ++ le32 1)
    (12 + align8 (value.length + 1)) (8 + align8 (value.length + 1))
    (le32 value.length) (8 + encSum ps + 20 + align4 name.length)
    (by simp [le32] <;> omega) (by simp [le32] <;> omega)]
  rw [wr_zeros0 (((((((P0 ++ le32 enc) ++ le32 dec) ++ le32 name.length) ++ name ++
      List.replicate (pad4 name.length) 0) ++ le32 DATA_TYPE_STRING) ++ le32 1) ++
      le32 value.length)
    (8 + align8 (value.length + 1)) (8 + Wv) (value ++ [0])
    (8 + encSum ps + 24 + align4 name.length)
    (by simp [le32] <;> omega) (by simp [le32] <;> omega)]
  rw [snoc_zero_merge]
  have hsplitz : List.replicate (8 + Wv + 1) (0 : Nat) =
      List.replicate (pad4 value.length) 0 ++
        (List.replicate (align8 (value.length + 1) - align4 value.length) 0 ++
          List.replicate 8 0) := by
    rw [← List.replicate_add, ← List.replicate_add]
    congr 1
    omega
  rw [hsplitz]
  have hpb : pairBytes (mkStrPair name value) =
      le32 enc ++ (le32 dec ++ (le32 name.length ++ (name ++
        (List.replicate (pad4 name.length) 0 ++ (le32 DATA_TYPE_STRING ++
          (le32 1 ++ (le32 value.length ++ (value ++
            (List.replicate (pad4 value.length) 0 ++
              List.replicate (align8 (value.length + 1) - align4 value.length) 0))))))))) := by
    have h1 : (mkStrPair name value).enc = enc := by
      rw [henc]
      simp [mkStrPair, Pair.enc, le32_length]
      omega
    have h2 : (mkStrPair name value).dec = dec := by
      rw [hdec]
      simp [mkStrPair]
    rw [pairBytes, h1, h2]
    simp [mkStrPair, List.append_assoc]
  have hser2 : serializeBody flag (ps ++ [mkStrPair name value]) =
      P0 ++ (pairBytes (mkStrPair name value) ++ List.replicate 8 0) := by
    rw [hG]
    simp [serializeBody, pairsBytes_append, pairsBytes, List.append_assoc]
  have hencp : encSum (ps ++ [mkStrPair name value]) = encSum ps + enc := by
    rw [encSum_append, henc]
    simp [encSum, mkStrPair, Pair.enc, le32_length]
    omega
  simp only [mkOwned, hser2, hpb, hencp]
  simp [List.append_assoc]
  constructor
  · omega
  · rw [List.replicate_add, List.append_assoc]

/-! ### Abstract transitions and the refinement of the mutation API -/

theorem mkOwned_data (a flag : Nat) (ps : List Pair) :
    (mkOwned a flag ps).nv_data = some (serializeBody flag ps) := rfl

theorem mkOwned_size (a flag : Nat) (ps : List Pair) :
    (mkOwned a flag ps).nv_size = 16 + encSum ps := rfl

theorem mkOwned_asize (a flag : Nat) (ps : List Pair) :
    (mkOwned a flag ps).nv_asize = a := rfl

theorem mkOwned_set_asize (a x flag : Nat) (ps : List Pair) :
    { mkOwned a flag ps with nv_asize := x } = mkOwned x flag ps := rfl

theorem mkOwned_update (a x flag : Nat) (ps : List Pair) :
    ({ nvh_encoding := (mkOwned a flag ps).nvh_encoding,
       nvh_endian := (mkOwned a flag ps).nvh_endian,
       nvh_reserved1 := (mkOwned a flag ps).nvh_reserved1,
       nvh_reserved2 := (mkOwned a flag ps).nvh_reserved2,
       nv_asize := x, nv_size := 16 + encSum ps,
       nv_data := (mkOwned a flag ps).nv_data } : Nvlist) = mkOwned x flag ps := rfl

theorem serializeBody_drop4 (flag : Nat) (ps : List Pair) :
    (serializeBody flag ps).drop 4 =
      le32 flag ++ (pairsBytes ps ++ List.replicate 8 0) := rfl

/-- What the uniqueness-removal step leaves: the pair list with the first
match (if any) deleted. -/
def absRemove (name : List Nat) (ty : Nat) (ps : List Pair) : List Pair :=
  match splitAtMatch name ty ps with
  | none => ps
  | some x => x.1 ++ x.2.2

theorem WF_absRemove (name : List Nat) (ty : Nat) (ps : List Pair)
    (hWF : ∀ p ∈ ps, WFpair p) : ∀ p ∈ absRemove name ty ps, WFpair p := by
  unfold absRemove
  cases hsp : splitAtMatch name ty ps with
  | none => exact hWF
  | some x =>
    obtain ⟨xa, xp, xb⟩ := x
    have hps := splitAtMatch_parts name ty ps xa xp xb hsp
    intro p hp
    refine hWF p ?_
    rw [hps]
    simp at hp ⊢
    tauto

/-- Abstract effect of `nvlist_add_uint64` on (capacity, pair list):
uniqueness removal, capacity check, then append. -/
def absAddPairU64 (flag a : Nat) (ps : List Pair) (name : List Nat)
    (v : Nat) (ok : Bool) : Nat × Nat × List Pair :=
  let ps1 := if flag % 2 = 1 then absRemove name DATA_TYPE_UINT64 ps else ps
  let enc := 40 + align4 name.length
  if a - (16 + encSum ps1) < enc + 8 then
    if ok then (0, a + enc, ps1 ++ [mkU64Pair name v])
    else (ENOMEM, a, ps1)
  else (0, a, ps1 ++ [mkU64Pair name v])

/-- Abstract effect of `nvlist_add_string`. -/
def absAddPairStr (flag a : Nat) (ps : List Pair) (name value : List Nat)
    (ok : Bool) : Nat × Nat × List Pair :=
  let ps1 := if flag % 2 = 1 then absRemove name DATA_TYPE_STRING ps else ps
  let enc := 24 + align4 name.length + align8 (value.length + 1)
  if a - (16 + encSum ps1) < enc + 8 then
    if ok then (0, a + enc, ps1 ++ [mkStrPair name value])
    else (ENOMEM, a, ps1)
  else (0, a, ps1 ++ [mkStrPair name value])

theorem remove_refine_state (a flag : Nat) (ps : List Pair) (name : List Nat)
    (ty : Nat) (hWF : ∀ p ∈ ps, WFpair p) :
    (nvlist_remove (mkOwned a flag ps) name ty).2 =
      mkOwned a flag (absRemove name ty ps) := by
  rw [remove_refine a flag ps name ty hWF]
  unfold absRemove
  cases hsp : splitAtMatch name ty ps with
  | none => rfl
  | some x => rfl

/-- `nvlist_add_uint64` on an owned buffer follows `absAddPairU64`. -/
theorem addU64_refine (a flag : Nat) (ps : List Pair) (name : List Nat)
    (v : Nat) (allocOk : Bool) (hWF : ∀ p ∈ ps, WFpair p)
    (hflag : flag < 4294967296) :
    nvlist_add_uint64 (mkOwned a flag ps) name v allocOk =
      ((absAddPairU64 flag a ps name v allocOk).1,
        mkOwned (absAddPairU64 flag a ps name v allocOk).2.1 flag
          (absAddPairU64 flag a ps name v allocOk).2.2) := by
  have hflagrd : rdU32 ((serializeBody flag ps).drop 4) = flag := by
    rw [serializeBody_drop4, rdU32_le32 _ _ hflag]
  have hence : 4 + 4 + 4 + align4 name.length + 4 + 4 + 4 + align8 (8 + 1) =
      40 + align4 name.length := by
    unfold align8; omega
  simp only [nvlist_add_uint64, mkOwned_data, Option.getD_some, hflagrd,
    absAddPairU64]
  by_cases hfl : flag % 2 = 1
  · simp only [if_pos hfl,
      remove_refine_state a flag ps name DATA_TYPE_UINT64 hWF]
    have hWF1 := WF_absRemove name DATA_TYPE_UINT64 ps hWF
    simp only [mkOwned_asize, mkOwned_size, hence]
    by_cases hc : a - (16 + encSum (absRemove name DATA_TYPE_UINT64 ps)) <
        40 + align4 name.length + 8
    · rw [if_pos hc, if_pos hc]
      cases allocOk with
      | false => rfl
      | true =>
        simp only [if_true, mkOwned_update]
        rw [writeU64Pair_spec _ flag _ name v _ _ rfl rfl]
    · rw [if_neg hc, if_neg hc]
      rw [writeU64Pair_spec _ flag _ name v _ _ rfl rfl]
  · simp only [if_neg hfl, mkOwned_asize, mkOwned_size, hence]
    by_cases hc : a - (16 + encSum ps) < 40 + align4 name.length + 8
    · rw [if_pos hc, if_pos hc]
      cases allocOk with
      | false => rfl
      | true =>
        simp only [if_true, mkOwned_update]
        rw [writeU64Pair_spec _ flag _ name v _ _ rfl rfl]
    · rw [if_neg hc, if_neg hc]
      rw [writeU64Pair_spec _ flag _ name v _ _ rfl rfl]

/-- `nvlist_add_string` on an owned buffer follows `absAddPairStr`. -/
theorem addStr_refine (a flag : Nat) (ps : List Pair) (name value : List Nat)
    (allocOk : Bool) (hWF : ∀ p ∈ ps, WFpair p) (hflag : flag < 4294967296) :
    nvlist_add_string (mkOwned a flag ps) name value allocOk =
      ((absAddPairStr flag a ps name value allocOk).1,
        mkOwned (absAddPairStr flag a ps name value allocOk).2.1 flag
          (absAddPairStr flag a ps name value allocOk).2.2) := by
  have hflagrd : rdU32 ((serializeBody flag ps).drop 4) = flag := by
    rw [serializeBody_drop4, rdU32_le32 _ _ hflag]
  have hence : 4 + 4 + 4 + align4 name.length + 4 + 4 + 4 +
      align8 (value.length + 1) =
      24 + align4 name.length + align8 (value.length + 1) := by
    omega
  simp only [nvlist_add_string, mkOwned_data, Option.getD_some, hflagrd,
    absAddPairStr]
  by_cases hfl : flag % 2 = 1
  · simp only [if_pos hfl,
      remove_refine_state a flag ps name DATA_TYPE_STRING hWF]
    have hWF1 := WF_absRemove name DATA_TYPE_STRING ps hWF
    simp only [mkOwned_asize, mkOwned_size, hence]
    by_cases hc : a - (16 + encSum (absRemove name DATA_TYPE_STRING ps)) <
        24 + align4 name.length + align8 (value.length + 1) + 8
    · rw [if_pos hc, if_pos hc]
      cases allocOk with
      | false => rfl
      | true =>
        simp only [if_true, mkOwned_update]
        rw [writeStrPair_spec _ flag _ name value _ _ rfl rfl]
    · rw [if_neg hc, if_neg hc]
      rw [writeStrPair_spec _ flag _ name value _ _ rfl rfl]
  · simp only [if_neg hfl, mkOwned_asize, mkOwned_size, hence]
    by_cases hc : a - (16 + encSum ps) <
        24 + align4 name.length + align8 (value.length + 1) + 8
    · rw [if_pos hc, if_pos hc]
      cases allocOk with
      | false => rfl
      | true =>
        simp only [if_true, mkOwned_update]
        rw [writeStrPair_spec _ flag _ name value _ _ rfl rfl]
    · rw [if_neg hc, if_neg hc]
      rw [writeStrPair_spec _ flag _ name value _ _ rfl rfl]

/-! ### Sequences of mutations -/

/-- One call of the mutation API (the allocator oracle for the adds is
part of the operation). -/
inductive Op where
  | addU64 (name : List Nat) (v : Nat) (ok : Bool)
  | addStr (name value : List Nat) (ok : Bool)
  | rem (name : List Nat) (ty : Nat)

/-- Apply one call to the handle, keeping the resulting state. -/
def applyOp (nvl : Nvlist) : Op → Nvlist
  | .addU64 n v ok => (nvlist_add_uint64 nvl n v ok).2
  | .addStr n s ok => (nvlist_add_string nvl n s ok).2
  | .rem n t => (nvlist_remove nvl n t).2

/-- The abstract transition on (capacity, pair list). -/
def absApply (flag : Nat) : Nat × List Pair → Op → Nat × List Pair
  | (a, ps), .addU64 n v ok => (absAddPairU64 flag a ps n v ok).2
  | (a, ps), .addStr n s ok => (absAddPairStr flag a ps n s ok).2
  | (a, ps), .rem n t => (a, absRemove n t ps)

/-- Size bounds keeping every stored field inside 32 bits. -/
def ValidOp : Op → Prop
  | .addU64 n _ _ => n.length ≤ 1073741824
  | .addStr n s _ => n.length ≤ 1073741824 ∧ s.length ≤ 1073741824
  | .rem _ _ => True

instance (op : Op) : Decidable (ValidOp op) := by
  cases op with
  | addU64 n v ok => exact inferInstanceAs (Decidable (n.length ≤ 1073741824))
  | addStr n s ok => exact inferInstanceAs (Decidable (_ ∧ _))
  | rem n t => exact inferInstanceAs (Decidable True)

theorem WF_mkU64Pair (name : List Nat) (v : Nat)
    (h : name.length ≤ 1073741824) : WFpair (mkU64Pair name v) := by
  have h1 := align4_lt name.length
  have h2 := align8_lt (16 + name.length + 1)
  have h3 := align8_ge (16 + name.length + 1)
  refine ⟨?_, ?_, ?_, ?_, ?_, ?_, ?_⟩ <;>
    simp [mkU64Pair, Pair.enc, le64_length, DATA_TYPE_UINT64] <;> omega

theorem WF_mkStrPair (name value : List Nat) (hn : name.length ≤ 1073741824)
    (hv : value.length ≤ 1073741824) : WFpair (mkStrPair name value) := by
  have h1 := align4_lt name.length
  have h2 := align8_lt (16 + name.length + 1)
  have h3 := align8_lt (value.length + 1)
  have h4 := align4_ge value.length
  have h5 := align4_le_align8_succ value.length
  have h6 : (8 : Nat) ∣ align8 (value.length + 1) :=
    Dvd.intro ((value.length + 1 + 7) / 8) (by unfold align8; omega)
  have h7 : (4 : Nat) ∣ align4 value.length := align4_dvd value.length
  have h9 := align8_ge (16 + name.length + 1)
  have hp4 : pad4 value.length = align4 value.length - value.length := rfl
  refine ⟨?_, ?_, ?_, ?_, ?_, ?_, ?_⟩ <;>
    simp [mkStrPair, Pair.enc, le32_length, DATA_TYPE_STRING] <;> omega

theorem WF_absApply (flag : Nat) (a : Nat) (ps : List Pair) (op : Op)
    (hWF : ∀ p ∈ ps, WFpair p) (hop : ValidOp op) :
    ∀ p ∈ (absApply flag (a, ps) op).2, WFpair p := by
  cases op with
  | addU64 n v ok =>
    have h1 := WF_absRemove n DATA_TYPE_UINT64 ps hWF
    have hps1 : ∀ q ∈ (if flag % 2 = 1 then
        absRemove n DATA_TYPE_UINT64 ps else ps), WFpair q := by
      by_cases hfl : flag % 2 = 1 <;> simp [hfl] <;> [exact h1; exact hWF]
    simp only [absApply, absAddPairU64]
    by_cases hc : a - (16 + encSum (if flag % 2 = 1 then
        absRemove n DATA_TYPE_UINT64 ps else ps)) < 40 + align4 n.length + 8
    · cases ok with
      | false =>
        simp only [if_pos hc]
        intro p hp
        exact hps1 p hp
      | true =>
        simp only [if_pos hc]
        intro p hp
        simp at hp
        rcases hp with hp | hp
        · exact hps1 p hp
        · subst hp; exact WF_mkU64Pair n v hop
    · simp only [if_neg hc]
      intro p hp
      simp at hp
      rcases hp with hp | hp
      · exact hps1 p hp
      · subst hp; exact WF_mkU64Pair n v hop
  | addStr n s ok =>
    obtain ⟨hn, hs⟩ := hop
    have h1 := WF_absRemove n DATA_TYPE_STRING ps hWF
    have hps1 : ∀ q ∈ (if flag % 2 = 1 then
        absRemove n DATA_TYPE_STRING ps else ps), WFpair q := by
      by_cases hfl : flag % 2 = 1 <;> simp [hfl] <;> [exact h1; exact hWF]
    simp only [absApply, absAddPairStr]
    by_cases hc : a - (16 + encSum (if flag % 2 = 1 then
        absRemove n DATA_TYPE_STRING ps else ps)) <
        24 + align4 n.length + align8 (s.length + 1) + 8
    · cases ok with
      | false =>
        simp only [if_pos hc]
        intro p hp
        exact hps1 p hp
      | true =>
        simp only [if_pos hc]
        intro p hp
        simp at hp
        rcases hp with hp | hp
        · exact hps1 p hp
        · subst hp; exact WF_mkStrPair n s hn hs
    · simp only [if_neg hc]
      intro p hp
      simp at hp
      rcases hp with hp | hp
      · exact hps1 p hp
      · subst hp; exact WF_mkStrPair n s hn hs
  | rem n t =>
    simp only [absApply]
    exact WF_absRemove n t ps hWF

/-- One mutation call on an owned buffer follows the abstract transition. -/
theorem applyOp_refine (flag : Nat) (hflag : flag < 4294967296) (a : Nat)
    (ps : List Pair) (op : Op) (hWF : ∀ p ∈ ps, WFpair p) :
    applyOp (mkOwned a flag ps) op =
      mkOwned (absApply flag (a, ps) op).1 flag (absApply flag (a, ps) op).2 := by
  cases op with
  | addU64 n v ok =>
    simp only [applyOp, absApply, addU64_refine a flag ps n v ok hWF hflag]
  | addStr n s ok =>
    simp only [applyOp, absApply, addStr_refine a flag ps n s ok hWF hflag]
  | rem n t =>
    simp only [applyOp, absApply, remove_refine_state a flag ps n t hWF]

theorem nvlist_create_eq (flag : Nat) :
    nvlist_create flag = mkOwned 16 flag [] := rfl

/-- A whole sequence of mutation calls on an owned buffer follows the
abstract foldl, and the abstract pair list stays well formed. -/
theorem foldl_refine (flag : Nat) (hflag : flag < 4294967296) :
    ∀ (ops : List Op) (a : Nat) (ps : List Pair),
      (∀ p ∈ ps, WFpair p) → (∀ op ∈ ops, ValidOp op) →
      List.foldl applyOp (mkOwned a flag ps) ops =
        mkOwned (List.foldl (absApply flag) (a, ps) ops).1 flag
          (List.foldl (absApply flag) (a, ps) ops).2 ∧
      ∀ p ∈ (List.foldl (absApply flag) (a, ps) ops).2, WFpair p := by
  intro ops
  induction ops with
  | nil =>
    intro a ps hWF _
    exact ⟨rfl, hWF⟩
  | cons op ops ih =>
    intro a ps hWF hops
    have hop : ValidOp op := hops op (by simp)
    have hops2 : ∀ o ∈ ops, ValidOp o := fun o ho => hops o (by simp [ho])
    have hWF2 := WF_absApply flag a ps op hWF hop
    have hstep := applyOp_refine flag hflag a ps op hWF
    simp only [List.foldl_cons, hstep]
    have hnext := ih (absApply flag (a, ps) op).1 (absApply flag (a, ps) op).2
      hWF2 hops2
    simpa using hnext


/-! ### Layout facts used by the invariant claims -/

theorem serializeBody_drop_encSum (flag : Nat) (A B : List Pair) :
    (serializeBody flag (A ++ B)).drop (8 + encSum A) =
      pairsBytes B ++ List.replicate 8 0 := by
  have hsplit : serializeBody flag (A ++ B) =
      (le32 NV_VERSION ++ le32 flag ++ pairsBytes A) ++
        (pairsBytes B ++ List.replicate 8 0) := by
    simp [serializeBody, pairsBytes_append, List.append_assoc]
  have hlen : (le32 NV_VERSION ++ le32 flag ++ pairsBytes A).length =
      8 + encSum A := by
    simp [le32, pairsBytes_length]
    omega
  rw [hsplit, drop_len_append _ _ _ hlen]

theorem rdU32_pairBytes (p : Pair) (r : List Nat) (h : p.enc < 4294967296) :
    rdU32 (pairBytes p ++ r) = p.enc := by
  have hsh : pairBytes p ++ r = le32 p.enc ++ (le32 p.dec ++
      (le32 p.name.length ++ (p.name ++ (List.replicate (pad4 p.name.length) 0 ++
        (le32 p.ptype ++ (le32 p.nelem ++ (p.vpay ++ r))))))) := by
    simp [pairBytes, List.append_assoc]
  rw [hsh, rdU32_le32 _ _ h]

theorem take_succ_get (ps : List Pair) (i : Nat) (h : i < ps.length) :
    ps.take (i + 1) = ps.take i ++ [ps.get ⟨i, h⟩] := by
  rw [List.take_succ]
  simp [List.getElem?_eq_getElem h]

theorem encSum_take_succ (ps : List Pair) (i : Nat) (h : i < ps.length) :
    encSum (ps.take (i + 1)) = encSum (ps.take i) + (ps.get ⟨i, h⟩).enc := by
  rw [take_succ_get ps i h, encSum_append]
  simp [encSum]

/-- C3. After any sequence of `add_uint64`, `add_string` and `remove`
calls on an owned nvlist, the buffer splits into pairs laid end to end:
the `encoded_size` word stored at each pair's header offset equals the
distance from that header to the next pair's header (the terminator's
offset after the last pair), the terminator's first word is zero, and the
terminator's 8 bytes end exactly at `nv_size`. -/
theorem C3_encoded_size_is_pair_distance (flag : Nat)
    (hflag : flag < 4294967296) (ops : List Op)
    (hops : ∀ op ∈ ops, ValidOp op) :
    ∃ ps : List Pair,
      (List.foldl applyOp (nvlist_create flag) ops).nv_data =
        some (serializeBody flag ps) ∧
      (∀ i (h : i < ps.length),
        rdU32 ((serializeBody flag ps).drop (8 + encSum (ps.take i))) =
          (8 + encSum (ps.take (i + 1))) - (8 + encSum (ps.take i))) ∧
      rdU32 ((serializeBody flag ps).drop (8 + encSum ps)) = 0 ∧
      8 + encSum ps + 8 =
        (List.foldl applyOp (nvlist_create flag) ops).nv_size := by
  obtain ⟨heq, hWF⟩ := foldl_refine flag hflag ops 16 [] (by simp) hops
  rw [nvlist_create_eq, heq]
  refine ⟨(List.foldl (absApply flag) (16, []) ops).2, mkOwned_data .., ?_, ?_, ?_⟩
  · intro i h
    have hsplit : (List.foldl (absApply flag) (16, []) ops).2 =
        (List.foldl (absApply flag) (16, []) ops).2.take i ++
          (List.foldl (absApply flag) (16, []) ops).2.drop i :=
      (List.take_append_drop i _).symm
    have hdropped := serializeBody_drop_encSum flag
      ((List.foldl (absApply flag) (16, []) ops).2.take i)
      ((List.foldl (absApply flag) (16, []) ops).2.drop i)
    rw [← hsplit] at hdropped
    have hcons : (List.foldl (absApply flag) (16, []) ops).2.drop i =
        (List.foldl (absApply flag) (16, []) ops).2.get ⟨i, h⟩ ::
          (List.foldl (absApply flag) (16, []) ops).2.drop (i + 1) :=
      List.drop_eq_getElem_cons h
    have hWFi : WFpair ((List.foldl (absApply flag) (16, []) ops).2.get ⟨i, h⟩) :=
      hWF _ (List.get_mem _ i h)
    rw [hdropped, hcons]
    have hrd : rdU32 (pairsBytes
        ((List.foldl (absApply flag) (16, []) ops).2.get ⟨i, h⟩ ::
          (List.foldl (absApply flag) (16, []) ops).2.drop (i + 1)) ++
        List.replicate 8 0) =
        ((List.foldl (absApply flag) (16, []) ops).2.get ⟨i, h⟩).enc := by
      rw [show pairsBytes ((List.foldl (absApply flag) (16, []) ops).2.get ⟨i, h⟩ ::
          (List.foldl (absApply flag) (16, []) ops).2.drop (i + 1)) ++
          List.replicate 8 0 =
          pairBytes ((List.foldl (absApply flag) (16, []) ops).2.get ⟨i, h⟩) ++
          (pairsBytes ((List.foldl (absApply flag) (16, []) ops).2.drop (i + 1)) ++
            List.replicate 8 0) by simp [pairsBytes, List.append_assoc]]
      exact rdU32_pairBytes _ _ hWFi.1
    rw [hrd, encSum_take_succ _ i h]
    omega
  · have hdropped := serializeBody_drop_encSum flag
      (List.foldl (absApply flag) (16, []) ops).2 []
    simp only [List.append_nil] at hdropped
    rw [hdropped]
    simp [pairsBytes]
    rfl
  · rw [mkOwned_size]
    omega

/-- C4. After any sequence of mutation calls on an owned nvlist the used
region ends with the 8-byte all-zero terminator: the buffer holds exactly
`nv_size` bytes and its last 8 bytes are zero. -/
theorem C4_terminator_invariant (flag : Nat) (hflag : flag < 4294967296)
    (ops : List Op) (hops : ∀ op ∈ ops, ValidOp op) :
    ∃ d : List Nat,
      (List.foldl applyOp (nvlist_create flag) ops).nv_data = some d ∧
      d.length = (List.foldl applyOp (nvlist_create flag) ops).nv_size ∧
      16 ≤ (List.foldl applyOp (nvlist_create flag) ops).nv_size ∧
      d.drop ((List.foldl applyOp (nvlist_create flag) ops).nv_size - 8) =
        List.replicate 8 0 := by
  obtain ⟨heq, hWF⟩ := foldl_refine flag hflag ops 16 [] (by simp) hops
  rw [nvlist_create_eq, heq]
  refine ⟨serializeBody flag (List.foldl (absApply flag) (16, []) ops).2,
    mkOwned_data .., ?_, ?_, ?_⟩
  · rw [serializeBody_length, mkOwned_size]
  · rw [mkOwned_size]
    omega
  · rw [mkOwned_size]
    have hdropped := serializeBody_drop_encSum flag
      (List.foldl (absApply flag) (16, []) ops).2 []
    simp only [List.append_nil] at hdropped
    have he : 16 + encSum (List.foldl (absApply flag) (16, []) ops).2 - 8 =
        8 + encSum (List.foldl (absApply flag) (16, []) ops).2 := by omega
    rw [he, hdropped]
    simp [pairsBytes]

/-- Closed witness for `C3_encoded_size_is_pair_distance`. -/
theorem C3_encoded_size_is_pair_distance_witness :
    (1 : Nat) < 4294967296 ∧
    (∀ op ∈ [Op.addU64 [107] 7 true, Op.addStr [97] [98, 99] true,
      Op.rem [107] DATA_TYPE_UINT64], ValidOp op) ∧
    ∃ ps : List Pair,
      (List.foldl applyOp (nvlist_create 1)
          [Op.addU64 [107] 7 true, Op.addStr [97] [98, 99] true,
            Op.rem [107] DATA_TYPE_UINT64]).nv_data =
        some (serializeBody 1 ps) ∧
      (∀ i (h : i < ps.length),
        rdU32 ((serializeBody 1 ps).drop (8 + encSum (ps.take i))) =
          (8 + encSum (ps.take (i + 1))) - (8 + encSum (ps.take i))) ∧
      rdU32 ((serializeBody 1 ps).drop (8 + encSum ps)) = 0 ∧
      8 + encSum ps + 8 =
        (List.foldl applyOp (nvlist_create 1)
          [Op.addU64 [107] 7 true, Op.addStr [97] [98, 99] true,
            Op.rem [107] DATA_TYPE_UINT64]).nv_size :=
  ⟨by decide, by decide,
    C3_encoded_size_is_pair_distance 1 (by decide) _ (by decide)⟩

/-- Closed witness for `C4_terminator_invariant`. -/
theorem C4_terminator_invariant_witness :
    (1 : Nat) < 4294967296 ∧
    (∀ op ∈ [Op.addU64 [107] 7 true, Op.addStr [97] [98, 99] false,
      Op.rem [97] DATA_TYPE_STRING], ValidOp op) ∧
    ∃ d : List Nat,
      (List.foldl applyOp (nvlist_create 1)
          [Op.addU64 [107] 7 true, Op.addStr [97] [98, 99] false,
            Op.rem [97] DATA_TYPE_STRING]).nv_data = some d ∧
      d.length = (List.foldl applyOp (nvlist_create 1)
          [Op.addU64 [107] 7 true, Op.addStr [97] [98, 99] false,
            Op.rem [97] DATA_TYPE_STRING]).nv_size ∧
      16 ≤ (List.foldl applyOp (nvlist_create 1)
          [Op.addU64 [107] 7 true, Op.addStr [97] [98, 99] false,
            Op.rem [97] DATA_TYPE_STRING]).nv_size ∧
      d.drop ((List.foldl applyOp (nvlist_create 1)
          [Op.addU64 [107] 7 true, Op.addStr [97] [98, 99] false,
            Op.rem [97] DATA_TYPE_STRING]).nv_size - 8) =
        List.replicate 8 0 :=
  ⟨by decide, by decide, C4_terminator_invariant 1 (by decide) _ (by decide)⟩


/-! ### Uniqueness of names (C5) -/

/-- Pairwise property: two pairs of the same type never share a name. -/
def sameTypeDistinct (ps : List Pair) : Prop :=
  List.Pairwise (fun p q => p.ptype = q.ptype → p.name ≠ q.name) ps

/-- A well-behaved universe of names: no NUL bytes, and no name is a
proper byte-prefix of another. -/
def GoodNames (NS : List (List Nat)) : Prop :=
  (∀ n ∈ NS, (0 : Nat) ∉ n) ∧
  ∀ n1 ∈ NS, ∀ n2 ∈ NS, n1 = n2 ∨ (¬ n1 <+: n2 ∧ ¬ n2 <+: n1)

/-- The add/remove operations of a sequence only use names of `NS`. -/
def opNameOk (NS : List (List Nat)) : Op → Prop
  | .addU64 n _ _ => n ∈ NS
  | .addStr n _ _ => n ∈ NS
  | .rem n _ => n ∈ NS

instance (NS : List (List Nat)) (op : Op) : Decidable (opNameOk NS op) := by
  cases op with
  | addU64 n v ok => exact inferInstanceAs (Decidable (n ∈ NS))
  | addStr n s ok => exact inferInstanceAs (Decidable (n ∈ NS))
  | rem n t => exact inferInstanceAs (Decidable (n ∈ NS))

/-- Under no-NUL and prefix-freedom, the `memcmp`-style match of the
walkers coincides with exact name equality. -/
theorem pMatch_iff_eq (p : Pair) (name : List Nat) (ty : Nat)
    (hp0 : (0 : Nat) ∉ p.name)
    (hpf : p.name = name ∨ (¬ p.name <+: name ∧ ¬ name <+: p.name)) :
    pMatch p name ty ↔ (p.name = name ∧ p.ptype = ty) := by
  constructor
  · rintro ⟨h1, h2⟩
    refine ⟨?_, h2⟩
    by_cases hle : p.name.length ≤ name.length
    · rw [List.take_append_of_le_length hle] at h1
      have hpref : p.name <+: name := h1 ▸ List.take_prefix _ _
      rcases hpf with h | h
      · exact h
      · exact absurd hpref h.1
    · push_neg at hle
      by_cases hlen2 : p.name.length ≤ name.length + 1
      · have hfull : (name ++ [0]).take p.name.length = name ++ [0] := by
          apply List.take_of_length_le
          simp
          omega
        rw [hfull] at h1
        exfalso
        apply hp0
        rw [h1]
        simp
      · exfalso
        have hlenEq : p.name.length = ((name ++ [0]).take p.name.length).length := by
          rw [← h1]
        simp [List.length_take] at hlenEq
        omega
  · rintro ⟨h1, h2⟩
    refine ⟨?_, h2⟩
    rw [h1]
    exact (List.take_left name [0]).symm

theorem splitAtMatch_none (name : List Nat) (ty : Nat) :
    ∀ ps, splitAtMatch name ty ps = none → ∀ p ∈ ps, ¬ pMatch p name ty := by
  intro ps
  induction ps with
  | nil => intro _ p hp; simp at hp
  | cons q tl ih =>
    intro h p hp
    by_cases hq : pMatch q name ty
    · rw [splitAtMatch, if_pos hq] at h
      simp at h
    · rw [splitAtMatch, if_neg hq] at h
      rcases List.mem_cons.1 hp with rfl | hp2
      · exact hq
      · cases hsp : splitAtMatch name ty tl with
        | none => exact ih hsp p hp2
        | some x => rw [hsp] at h; simp at h

/-- After the uniqueness removal no pair of the removed (name, type) is
left, provided names are NUL-free and prefix-free. -/
theorem absRemove_no_match (NS : List (List Nat)) (hNS : GoodNames NS)
    (ps : List Pair) (name : List Nat) (ty : Nat) (hname : name ∈ NS)
    (hmem : ∀ p ∈ ps, p.name ∈ NS) (hdist : sameTypeDistinct ps) :
    ∀ q ∈ absRemove name ty ps, ¬ (q.name = name ∧ q.ptype = ty) := by
  unfold absRemove
  cases hsp : splitAtMatch name ty ps with
  | none =>
    intro q hq ⟨h1, h2⟩
    have := splitAtMatch_none name ty ps hsp q hq
    exact this ((pMatch_iff_eq q name ty (hNS.1 _ (hmem q hq))
      (hNS.2 _ (hmem q hq) _ hname)).2 ⟨h1, h2⟩)
  | some x =>
    obtain ⟨xa, q0, xb⟩ := x
    have hps := splitAtMatch_parts name ty ps xa q0 xb hsp
    have hq0mem : q0 ∈ ps := by rw [hps]; simp
    have hq0 : pMatch q0 name ty := splitAtMatch_match name ty ps xa q0 xb hsp
    have hq0eq : q0.name = name ∧ q0.ptype = ty :=
      (pMatch_iff_eq q0 name ty (hNS.1 _ (hmem q0 hq0mem))
        (hNS.2 _ (hmem q0 hq0mem) _ hname)).1 hq0
    rw [hps] at hdist
    unfold sameTypeDistinct at hdist
    rw [List.pairwise_append] at hdist
    obtain ⟨hxa, hcons, hcross⟩ := hdist
    rw [List.pairwise_cons] at hcons
    obtain ⟨hq0b, hxb⟩ := hcons
    dsimp only
    intro q hq ⟨h1, h2⟩
    rcases List.mem_append.1 hq with hqa | hqb
    · exact hcross q hqa q0 (List.mem_cons_self q0 xb)
        (by rw [h2, hq0eq.2]) (by rw [h1, hq0eq.1])
    · exact hq0b q hqb (by rw [hq0eq.2, h2]) (by rw [hq0eq.1, h1])

theorem sameTypeDistinct_absRemove (ps : List Pair) (name : List Nat) (ty : Nat)
    (hdist : sameTypeDistinct ps) : sameTypeDistinct (absRemove name ty ps) := by
  unfold absRemove
  cases hsp : splitAtMatch name ty ps with
  | none => exact hdist
  | some x =>
    obtain ⟨xa, q0, xb⟩ := x
    have hps := splitAtMatch_parts name ty ps xa q0 xb hsp
    rw [hps] at hdist
    exact hdist.sublist
      (List.Sublist.append (List.Sublist.refl xa) (List.sublist_cons_self q0 xb))

theorem mem_absRemove (ps : List Pair) (name : List Nat) (ty : Nat) :
    ∀ q ∈ absRemove name ty ps, q ∈ ps := by
  unfold absRemove
  cases hsp : splitAtMatch name ty ps with
  | none => intro q hq; exact hq
  | some x =>
    obtain ⟨xa, q0, xb⟩ := x
    have hps := splitAtMatch_parts name ty ps xa q0 xb hsp
    intro q hq
    rw [hps]
    rcases List.mem_append.1 hq with h | h
    · simp [h]
    · simp [h]

/-- Appending a fresh pair after the uniqueness removal keeps the
per-type distinctness, under NUL-free prefix-free names. -/
theorem absRemoveAppend_inv (NS : List (List Nat)) (hNS : GoodNames NS)
    (ps : List Pair) (name : List Nat) (newp : Pair) (ty : Nat)
    (hname : name ∈ NS) (hmem : ∀ p ∈ ps, p.name ∈ NS)
    (hdist : sameTypeDistinct ps)
    (hnew : newp.name = name ∧ newp.ptype = ty) :
    (∀ p ∈ absRemove name ty ps ++ [newp], p.name ∈ NS) ∧
      sameTypeDistinct (absRemove name ty ps ++ [newp]) := by
  constructor
  · intro p hp
    rcases List.mem_append.1 hp with h | h
    · exact hmem p (mem_absRemove ps name ty p h)
    · simp at h
      rw [h, hnew.1]
      exact hname
  · unfold sameTypeDistinct
    rw [List.pairwise_append]
    refine ⟨sameTypeDistinct_absRemove ps name ty hdist, by simp, ?_⟩
    intro p hp q hq
    simp at hq
    subst hq
    intro hty heqname
    exact absRemove_no_match NS hNS ps name ty hname hmem hdist p hp
      ⟨by rw [heqname, hnew.1], by rw [hty, hnew.2]⟩

/-- The abstract invariant of C5 is preserved by every call under the
`NV_UNIQUE_NAME` flag. -/
theorem absApply_inv (NS : List (List Nat)) (hNS : GoodNames NS)
    (a : Nat) (ps : List Pair) (op : Op) (hop : opNameOk NS op)
    (hmem : ∀ p ∈ ps, p.name ∈ NS) (hdist : sameTypeDistinct ps) :
    (∀ p ∈ (absApply 1 (a, ps) op).2, p.name ∈ NS) ∧
      sameTypeDistinct (absApply 1 (a, ps) op).2 := by
  cases op with
  | addU64 n v ok =>
    have hkey := absRemoveAppend_inv NS hNS ps n (mkU64Pair n v)
      DATA_TYPE_UINT64 hop hmem hdist ⟨rfl, rfl⟩
    have hrm : (∀ p ∈ absRemove n DATA_TYPE_UINT64 ps, p.name ∈ NS) ∧
        sameTypeDistinct (absRemove n DATA_TYPE_UINT64 ps) :=
      ⟨fun p hp => hmem p (mem_absRemove ps n DATA_TYPE_UINT64 p hp),
        sameTypeDistinct_absRemove ps n DATA_TYPE_UINT64 hdist⟩
    simp only [absApply, absAddPairU64, if_true]
    by_cases hc : a - (16 + encSum (absRemove n DATA_TYPE_UINT64 ps)) <
        40 + align4 n.length + 8
    · cases ok with
      | false => rw [if_pos hc]; exact hrm
      | true => rw [if_pos hc]; exact hkey
    · rw [if_neg hc]; exact hkey
  | addStr n s ok =>
    have hkey := absRemoveAppend_inv NS hNS ps n (mkStrPair n s)
      DATA_TYPE_STRING hop hmem hdist ⟨rfl, rfl⟩
    have hrm : (∀ p ∈ absRemove n DATA_TYPE_STRING ps, p.name ∈ NS) ∧
        sameTypeDistinct (absRemove n DATA_TYPE_STRING ps) :=
      ⟨fun p hp => hmem p (mem_absRemove ps n DATA_TYPE_STRING p hp),
        sameTypeDistinct_absRemove ps n DATA_TYPE_STRING hdist⟩
    simp only [absApply, absAddPairStr, if_true]
    by_cases hc : a - (16 + encSum (absRemove n DATA_TYPE_STRING ps)) <
        24 + align4 n.length + align8 (s.length + 1) + 8
    · cases ok with
      | false => rw [if_pos hc]; exact hrm
      | true => rw [if_pos hc]; exact hkey
    · rw [if_neg hc]; exact hkey
  | rem n t =>
    simp only [absApply]
    exact ⟨fun p hp => hmem p (mem_absRemove ps n t p hp),
      sameTypeDistinct_absRemove ps n t hdist⟩

theorem absFold_inv (NS : List (List Nat)) (hNS : GoodNames NS) :
    ∀ (ops : List Op), (∀ op ∈ ops, opNameOk NS op) →
    ∀ (a : Nat) (ps : List Pair), (∀ p ∈ ps, p.name ∈ NS) →
      sameTypeDistinct ps →
      sameTypeDistinct (List.foldl (absApply 1) (a, ps) ops).2 := by
  intro ops
  induction ops with
  | nil => intro _ a ps _ hdist; exact hdist
  | cons op tl ih =>
    intro hops a ps hmem hdist
    obtain ⟨hmem2, hdist2⟩ :=
      absApply_inv NS hNS a ps op (hops op (by simp)) hmem hdist
    have := ih (fun o ho => hops o (by simp [ho]))
      (absApply 1 (a, ps) op).1 (absApply 1 (a, ps) op).2 hmem2 hdist2
    simpa using this

/-- C5 (amended).  With `NV_UNIQUE_NAME` set, for any sequence of calls
whose names contain no NUL byte and are mutually prefix-free, no two
pairs of the SAME type share a name; pairs of different types may still
share a name (see the counterexample). -/
theorem C5_per_type_uniqueness (NS : List (List Nat)) (hNS : GoodNames NS)
    (ops : List Op) (hops : ∀ op ∈ ops, ValidOp op)
    (hnames : ∀ op ∈ ops, opNameOk NS op) :
    ∃ ps : List Pair,
      (List.foldl applyOp (nvlist_create 1) ops).nv_data =
        some (serializeBody 1 ps) ∧ sameTypeDistinct ps := by
  obtain ⟨heq, _⟩ := foldl_refine 1 (by decide) ops 16 [] (by simp) hops
  rw [nvlist_create_eq, heq]
  exact ⟨(List.foldl (absApply 1) (16, []) ops).2, mkOwned_data ..,
    absFold_inv NS hNS ops hnames 16 [] (by simp) (by simp [sameTypeDistinct])⟩

set_option maxRecDepth 10000 in
/-- C5 counterexample: starting from `create(NV_UNIQUE_NAME)`,
`add_uint64("k", 1)` then `add_string("k", "v")` leaves TWO pairs both
named `"k"` (of different types) in the buffer — both lookups succeed —
refuting "no two pairs share the same name (regardless of their types)". -/
theorem C5_counterexample :
    (List.foldl applyOp (nvlist_create 1)
        [Op.addU64 [107] 1 true, Op.addStr [107] [118] true]).nv_data =
      some (serializeBody 1 [mkU64Pair [107] 1, mkStrPair [107] [118]]) ∧
    (mkU64Pair [107] 1).name = (mkStrPair [107] [118]).name ∧
    (mkU64Pair [107] 1).ptype ≠ (mkStrPair [107] [118]).ptype ∧
    (nvlist_find (List.foldl applyOp (nvlist_create 1)
        [Op.addU64 [107] 1 true, Op.addStr [107] [118] true]) [107]
      DATA_TYPE_UINT64).1 = 0 ∧
    (nvlist_find (List.foldl applyOp (nvlist_create 1)
        [Op.addU64 [107] 1 true, Op.addStr [107] [118] true]) [107]
      DATA_TYPE_STRING).1 = 0 := by
  refine ⟨by decide, by decide, by decide, by decide, by decide⟩

set_option maxRecDepth 10000 in
/-- Closed witness for `C5_per_type_uniqueness`. -/
theorem C5_per_type_uniqueness_witness :
    GoodNames [[107], [97, 98]] ∧
    (∀ op ∈ [Op.addU64 [107] 1 true, Op.addStr [97, 98] [5] true,
      Op.addU64 [107] 2 true], ValidOp op) ∧
    (∀ op ∈ [Op.addU64 [107] 1 true, Op.addStr [97, 98] [5] true,
      Op.addU64 [107] 2 true], opNameOk [[107], [97, 98]] op) ∧
    ∃ ps : List Pair,
      (List.foldl applyOp (nvlist_create 1)
          [Op.addU64 [107] 1 true, Op.addStr [97, 98] [5] true,
            Op.addU64 [107] 2 true]).nv_data =
        some (serializeBody 1 ps) ∧ sameTypeDistinct ps :=
  ⟨⟨by decide, by decide⟩, by decide, by decide,
    C5_per_type_uniqueness [[107], [97, 98]] ⟨by decide, by decide⟩ _
      (by decide) (by decide)⟩


/-! ### The find query (C8) -/

theorem encSum_mod4 (ps : List Pair) (h : ∀ p ∈ ps, WFpair p) :
    encSum ps % 4 = 0 := by
  induction ps with
  | nil => simp [encSum]
  | cons p tl ih =>
    have h1 := pair_enc_mod4 p (h p (by simp)).2.2.2.2.2.2
    have h2 := ih (fun q hq => h q (by simp [hq]))
    simp [encSum]
    omega

theorem splitAtMatch_eq_none_iff (name : List Nat) (ty : Nat) (ps : List Pair) :
    splitAtMatch name ty ps = none ↔ ∀ p ∈ ps, ¬ pMatch p name ty := by
  constructor
  · exact splitAtMatch_none name ty ps
  · intro h
    induction ps with
    | nil => rfl
    | cons q tl ih =>
      rw [splitAtMatch, if_neg (h q (by simp))]
      rw [ih (fun p hp => h p (by simp [hp]))]
      rfl

/-- `nvlist_find` with no prefix-match returns ENOENT. -/
theorem find_notFound (a flag : Nat) (ps : List Pair) (name : List Nat)
    (ty : Nat) (hWF : ∀ p ∈ ps, WFpair p)
    (hsp : splitAtMatch name ty ps = none) :
    nvlist_find (mkOwned a flag ps) name ty = (ENOENT, none) := by
  have hfuel : ps.length < (serializeBody flag ps).length + 1 := by
    have := encSum_ge_len ps
    have := serializeBody_length flag ps
    omega
  have hwalk := pairWalk_spec (serializeBody flag ps) name ty ps 8
    ((serializeBody flag ps).length + 1) (serializeBody_drop8 flag ps) hWF
    (by omega) hfuel
  simp only [nvlist_find, mkOwned_data, hwalk, hsp]

/-- The payload reads of a found pair. -/
theorem find_reads (flag : Nat) (ps xa : List Pair) (p : Pair) (b : List Pair)
    (hps : ps = xa ++ p :: b) (hWF : ∀ q ∈ ps, WFpair q) :
    (serializeBody flag ps).drop (8 + encSum xa + 12 + align4 p.name.length + 4) =
        le32 p.nelem ++ (p.vpay ++ (pairsBytes b ++ List.replicate 8 0)) ∧
      (serializeBody flag ps).drop (8 + encSum xa + 12 + align4 p.name.length + 8) =
        p.vpay ++ (pairsBytes b ++ List.replicate 8 0) := by
  have hWFp : WFpair p := hWF p (by rw [hps]; simp)
  have hWFxa : ∀ q ∈ xa, WFpair q := fun q hq => hWF q (by rw [hps]; simp [hq])
  have hmod : (8 + encSum xa) % 4 = 0 := by
    have := encSum_mod4 xa hWFxa
    omega
  have hdropA : (serializeBody flag ps).drop (8 + encSum xa) =
      pairBytes p ++ (pairsBytes b ++ List.replicate 8 0) := by
    rw [hps, serializeBody_drop_encSum flag xa (p :: b)]
    simp [pairsBytes, List.append_assoc]
  obtain ⟨_, _, _, _, _, e6, _⟩ :=
    firstPair_reads (serializeBody flag ps) (8 + encSum xa) p _ hdropA hWFp hmod
  constructor
  · have hsplit : (serializeBody flag ps).drop
        (8 + encSum xa + 12 + align4 p.name.length + 4) =
        ((serializeBody flag ps).drop
          (8 + encSum xa + 12 + align4 p.name.length)).drop 4 :=
      drop_add_offset _ _ 4
    rw [hsplit, e6]
    rfl
  · have hsplit : (serializeBody flag ps).drop
        (8 + encSum xa + 12 + align4 p.name.length + 8) =
        ((serializeBody flag ps).drop
          (8 + encSum xa + 12 + align4 p.name.length)).drop 8 :=
      drop_add_offset _ _ 8
    rw [hsplit, e6]
    rfl

/-- `nvlist_find` on a matched `add_uint64` pair returns its value. -/
theorem find_found_u64 (a flag : Nat) (ps xa b : List Pair) (name n : List Nat)
    (v : Nat) (hv : v < 18446744073709551616) (hWF : ∀ q ∈ ps, WFpair q)
    (hsp : splitAtMatch name DATA_TYPE_UINT64 ps = some (xa, mkU64Pair n v, b)) :
    nvlist_find (mkOwned a flag ps) name DATA_TYPE_UINT64 =
      (0, some (.u64 1 v)) := by
  have hps := splitAtMatch_parts name DATA_TYPE_UINT64 ps xa (mkU64Pair n v) b hsp
  have hfuel : ps.length < (serializeBody flag ps).length + 1 := by
    have := encSum_ge_len ps
    have := serializeBody_length flag ps
    omega
  have hwalk := pairWalk_spec (serializeBody flag ps) name DATA_TYPE_UINT64 ps 8
    ((serializeBody flag ps).length + 1) (serializeBody_drop8 flag ps) hWF
    (by omega) hfuel
  obtain ⟨r1, r2⟩ := find_reads flag ps xa (mkU64Pair n v) b hps hWF
  simp only [nvlist_find, mkOwned_data, hwalk, hsp]
  rw [if_true]
  have hnelem : rdU32 ((serializeBody flag ps).drop
      (8 + encSum xa + 12 + align4 (mkU64Pair n v).name.length + 4)) = 1 := by
    rw [r1, show (mkU64Pair n v).nelem = 1 from rfl,
      rdU32_le32 _ _ (by decide : (1 : Nat) < 4294967296)]
  have hval : rdU64 ((serializeBody flag ps).drop
      (8 + encSum xa + 12 + align4 (mkU64Pair n v).name.length + 8)) = v := by
    rw [r2]
    have hshape : (mkU64Pair n v).vpay ++ (pairsBytes b ++ List.replicate 8 0) =
        le64 v ++ (List.replicate 12 0 ++ (pairsBytes b ++ List.replicate 8 0)) := by
      simp [mkU64Pair, List.append_assoc]
    rw [hshape, rdU64_le64 _ _ hv]
  rw [hnelem, hval]

/-- `nvlist_find` on a matched `add_string` pair returns the stored size
and bytes. -/
theorem find_found_str (a flag : Nat) (ps xa b : List Pair) (name n s : List Nat)
    (hs : s.length < 4294967296) (hWF : ∀ q ∈ ps, WFpair q)
    (hsp : splitAtMatch name DATA_TYPE_STRING ps = some (xa, mkStrPair n s, b)) :
    nvlist_find (mkOwned a flag ps) name DATA_TYPE_STRING =
      (0, some (.str 1 s.length s)) := by
  have hps := splitAtMatch_parts name DATA_TYPE_STRING ps xa (mkStrPair n s) b hsp
  have hfuel : ps.length < (serializeBody flag ps).length + 1 := by
    have := encSum_ge_len ps
    have := serializeBody_length flag ps
    omega
  have hwalk := pairWalk_spec (serializeBody flag ps) name DATA_TYPE_STRING ps 8
    ((serializeBody flag ps).length + 1) (serializeBody_drop8 flag ps) hWF
    (by omega) hfuel
  obtain ⟨r1, r2⟩ := find_reads flag ps xa (mkStrPair n s) b hps hWF
  simp only [nvlist_find, mkOwned_data, hwalk, hsp]
  rw [if_neg (by decide : ¬ (DATA_TYPE_STRING = DATA_TYPE_UINT64)), if_true]
  have hnelem : rdU32 ((serializeBody flag ps).drop
      (8 + encSum xa + 12 + align4 (mkStrPair n s).name.length + 4)) = 1 := by
    rw [r1, show (mkStrPair n s).nelem = 1 from rfl,
      rdU32_le32 _ _ (by decide : (1 : Nat) < 4294967296)]
  have hshape : (mkStrPair n s).vpay ++ (pairsBytes b ++ List.replicate 8 0) =
      le32 s.length ++ (s ++ (List.replicate (pad4 s.length) 0 ++
        (List.replicate (align8 (s.length + 1) - align4 s.length) 0 ++
          (pairsBytes b ++ List.replicate 8 0)))) := by
    simp [mkStrPair, List.append_assoc]
    rw [List.replicate_add, List.append_assoc]
  have hssz : rdU32 ((serializeBody flag ps).drop
      (8 + encSum xa + 12 + align4 (mkStrPair n s).name.length + 8)) = s.length := by
    rw [r2, hshape, rdU32_le32 _ _ hs]
  have hbytes : (((serializeBody flag ps).drop
      (8 + encSum xa + 12 + align4 (mkStrPair n s).name.length + 8)).drop 4).take
        s.length = s := by
    rw [r2, hshape, le32_append_drop4, take_len_append _ _ _ rfl]
  have hsplit12 : (serializeBody flag ps).drop
      (8 + encSum xa + 12 + align4 (mkStrPair n s).name.length + 12) =
      ((serializeBody flag ps).drop
        (8 + encSum xa + 12 + align4 (mkStrPair n s).name.length + 8)).drop 4 := by
    rw [show 8 + encSum xa + 12 + align4 (mkStrPair n s).name.length + 12 =
      8 + encSum xa + 12 + align4 (mkStrPair n s).name.length + 8 + 4 by omega]
    exact drop_add_offset _ _ 4
  rw [hnelem, hssz, hsplit12, hbytes]

/-- C8 (amended).  `nvlist_find` matches a pair by comparing the STORED
name's bytes against the same number of leading bytes of the caller's
NUL-terminated name (a prefix comparison, not an exact-name comparison)
plus the type tag: it returns ENOENT exactly when no pair prefix-matches,
and otherwise the first prefix-matching pair's value. -/
theorem C8_find_characterization (a flag : Nat) (ps : List Pair)
    (name : List Nat) (ty : Nat) (hWF : ∀ q ∈ ps, WFpair q) :
    (splitAtMatch name ty ps = none →
      nvlist_find (mkOwned a flag ps) name ty = (ENOENT, none)) ∧
    ((∀ p ∈ ps, ¬ pMatch p name ty) →
      nvlist_find (mkOwned a flag ps) name ty = (ENOENT, none)) ∧
    (∀ xa b n v, v < 18446744073709551616 →
      splitAtMatch name DATA_TYPE_UINT64 ps = some (xa, mkU64Pair n v, b) →
      ty = DATA_TYPE_UINT64 →
      nvlist_find (mkOwned a flag ps) name ty = (0, some (.u64 1 v))) ∧
    (∀ xa b n s, s.length < 4294967296 →
      splitAtMatch name DATA_TYPE_STRING ps = some (xa, mkStrPair n s, b) →
      ty = DATA_TYPE_STRING →
      nvlist_find (mkOwned a flag ps) name ty = (0, some (.str 1 s.length s))) := by
  refine ⟨fun hsp => find_notFound a flag ps name ty hWF hsp,
    fun hnm => find_notFound a flag ps name ty hWF
      ((splitAtMatch_eq_none_iff name ty ps).2 hnm), ?_, ?_⟩
  · intro xa b n v hv hsp hty
    subst hty
    exact find_found_u64 a flag ps xa b name n v hv hWF hsp
  · intro xa b n s hs hsp hty
    subst hty
    exact find_found_str a flag ps xa b name n s hs hWF hsp

set_option maxRecDepth 10000 in
/-- C8 counterexample: with a single pair stored under the two-byte name
"ab", `find("abc", STRING)` SUCCEEDS and returns that pair's value —
the stored pair's name is not equal to the queried name, refuting
"returns a pair's value only when the stored pair's name equals the given
name exactly — same length and same bytes". -/
theorem C8_counterexample :
    (nvlist_find (List.foldl applyOp (nvlist_create 1)
        [Op.addStr [97, 98] [118] true]) [97, 98, 99] DATA_TYPE_STRING) =
      (0, some (.str 1 1 [118])) ∧
    [97, 98] ≠ [97, 98, 99] := by
  refine ⟨by decide, by decide⟩

set_option maxRecDepth 10000 in
/-- Closed witness for `C8_find_characterization`. -/
theorem C8_find_characterization_witness :
    (∀ q ∈ [mkU64Pair [107] 7], WFpair q) ∧
    ((∀ p ∈ [mkU64Pair [107] 7], ¬ pMatch p [97] DATA_TYPE_UINT64) →
      nvlist_find (mkOwned 60 1 [mkU64Pair [107] 7]) [97] DATA_TYPE_UINT64 =
        (ENOENT, none)) ∧
    nvlist_find (mkOwned 60 1 [mkU64Pair [107] 7]) [107] DATA_TYPE_UINT64 =
      (0, some (.u64 1 7)) := by
  have h := C8_find_characterization 60 1 [mkU64Pair [107] 7] [107]
    DATA_TYPE_UINT64 (by
      intro q hq
      simp at hq
      subst hq
      exact WF_mkU64Pair [107] 7 (by decide))
  have h2 := C8_find_characterization 60 1 [mkU64Pair [107] 7] [97]
    DATA_TYPE_UINT64 (by
      intro q hq
      simp at hq
      subst hq
      exact WF_mkU64Pair [107] 7 (by decide))
  refine ⟨by
    intro q hq
    simp at hq
    subst hq
    exact WF_mkU64Pair [107] 7 (by decide), h2.2.1, ?_⟩
  exact h.2.2.1 [] [] [107] 7 (by decide) (by decide) rfl


/-! ### Atomicity on allocation failure (C6) -/

theorem writeU64Pair_errno (nvl : Nvlist) (name : List Nat) (v enc dec : Nat) :
    (writeU64Pair nvl name v enc dec).1 = 0 := rfl

theorem writeStrPair_errno (nvl : Nvlist) (name value : List Nat)
    (enc dec : Nat) : (writeStrPair nvl name value enc dec).1 = 0 := rfl

theorem remove_enoent (nvl : Nvlist) (name : List Nat) (ty : Nat)
    (h : (nvlist_remove nvl name ty).1 = ENOENT) :
    (nvlist_remove nvl name ty).2 = nvl := by
  unfold nvlist_remove at h ⊢
  revert h
  cases hd : nvl.nv_data with
  | none =>
    intro h
    simp [EINVAL, ENOENT] at h
  | some data =>
    dsimp only
    cases hw : pairWalk data name ty 8 (data.length + 1) with
    | notFound =>
      intro h
      rfl
    | fault =>
      intro h
      simp [faultErr, ENOENT] at h
    | found off enc ns vo =>
      intro h
      dsimp only at h
      by_cases hb : off + enc ≤ nvl.nv_size
      · rw [if_pos hb] at h
        simp [ENOENT] at h
      · rw [if_neg hb] at h
        simp [faultErr, ENOENT] at h

/-- C6 (amended).  When `nvlist_add_uint64` / `nvlist_add_string` returns
ENOMEM, the handle holds the state left by the preceding uniqueness
removal — NOT necessarily the state before the call; it is unchanged
exactly when that removal found nothing (or the flag is clear). -/
theorem C6_enomem_postremove (nvl : Nvlist) (name : List Nat) (v : Nat)
    (value : List Nat) (ok : Bool) :
    ((nvlist_add_uint64 nvl name v ok).1 = ENOMEM →
      (nvlist_add_uint64 nvl name v ok).2 =
        (if rdU32 ((nvl.nv_data.getD []).drop 4) % 2 = 1 then
          (nvlist_remove nvl name DATA_TYPE_UINT64).2 else nvl)) ∧
    ((nvlist_add_string nvl name value ok).1 = ENOMEM →
      (nvlist_add_string nvl name value ok).2 =
        (if rdU32 ((nvl.nv_data.getD []).drop 4) % 2 = 1 then
          (nvlist_remove nvl name DATA_TYPE_STRING).2 else nvl)) ∧
    ((nvlist_remove nvl name DATA_TYPE_UINT64).1 = ENOENT →
      (nvlist_add_uint64 nvl name v ok).1 = ENOMEM →
      (nvlist_add_uint64 nvl name v ok).2 = nvl) := by
  have hU : (nvlist_add_uint64 nvl name v ok).1 = ENOMEM →
      (nvlist_add_uint64 nvl name v ok).2 =
        (if rdU32 ((nvl.nv_data.getD []).drop 4) % 2 = 1 then
          (nvlist_remove nvl name DATA_TYPE_UINT64).2 else nvl) := by
    intro hr
    simp only [nvlist_add_uint64] at hr ⊢
    by_cases hfl : rdU32 ((nvl.nv_data.getD []).drop 4) % 2 = 1
    · rw [if_pos hfl] at hr ⊢
      by_cases hc : (nvlist_remove nvl name DATA_TYPE_UINT64).2.nv_asize -
          (nvlist_remove nvl name DATA_TYPE_UINT64).2.nv_size <
          4 + 4 + 4 + align4 name.length + 4 + 4 + 4 + align8 (8 + 1) + 8
      · rw [if_pos hc] at hr ⊢
        cases ok with
        | false => rfl
        | true =>
          rw [if_pos rfl] at hr
          rw [writeU64Pair_errno] at hr
          exact absurd hr (by decide)
      · rw [if_neg hc] at hr
        rw [writeU64Pair_errno] at hr
        exact absurd hr (by decide)
    · rw [if_neg hfl] at hr ⊢
      by_cases hc : nvl.nv_asize - nvl.nv_size <
          4 + 4 + 4 + align4 name.length + 4 + 4 + 4 + align8 (8 + 1) + 8
      · rw [if_pos hc] at hr ⊢
        cases ok with
        | false => rfl
        | true =>
          rw [if_pos rfl] at hr
          rw [writeU64Pair_errno] at hr
          exact absurd hr (by decide)
      · rw [if_neg hc] at hr
        rw [writeU64Pair_errno] at hr
        exact absurd hr (by decide)
  refine ⟨hU, ?_, ?_⟩
  · intro hr
    simp only [nvlist_add_string] at hr ⊢
    by_cases hfl : rdU32 ((nvl.nv_data.getD []).drop 4) % 2 = 1
    · rw [if_pos hfl] at hr ⊢
      by_cases hc : (nvlist_remove nvl name DATA_TYPE_STRING).2.nv_asize -
          (nvlist_remove nvl name DATA_TYPE_STRING).2.nv_size <
          4 + 4 + 4 + align4 name.length + 4 + 4 + 4 + align8 (value.length + 1) + 8
      · rw [if_pos hc] at hr ⊢
        cases ok with
        | false => rfl
        | true =>
          rw [if_pos rfl] at hr
          rw [writeStrPair_errno] at hr
          exact absurd hr (by decide)
      · rw [if_neg hc] at hr
        rw [writeStrPair_errno] at hr
        exact absurd hr (by decide)
    · rw [if_neg hfl] at hr ⊢
      by_cases hc : nvl.nv_asize - nvl.nv_size <
          4 + 4 + 4 + align4 name.length + 4 + 4 + 4 + align8 (value.length + 1) + 8
      · rw [if_pos hc] at hr ⊢
        cases ok with
        | false => rfl
        | true =>
          rw [if_pos rfl] at hr
          rw [writeStrPair_errno] at hr
          exact absurd hr (by decide)
      · rw [if_neg hc] at hr
        rw [writeStrPair_errno] at hr
        exact absurd hr (by decide)
  · intro hrm hr
    rw [hU hr]
    by_cases hfl : rdU32 ((nvl.nv_data.getD []).drop 4) % 2 = 1
    · rw [if_pos hfl]
      exact remove_enoent nvl name DATA_TYPE_UINT64 hrm
    · rw [if_neg hfl]

set_option maxRecDepth 10000 in
/-- C6 counterexample: the nvlist holds the pair "k"; a second
`add_uint64("k", 9)` whose reallocation fails returns ENOMEM but has
already removed the existing pair — the buffer and used size are NOT as
before the call, refuting per-call atomicity. -/
theorem C6_counterexample :
    (nvlist_add_uint64 (nvlist_add_uint64 (nvlist_create 1) [107] 5 true).2
        [107] 9 false).1 = ENOMEM ∧
    (nvlist_add_uint64 (nvlist_add_uint64 (nvlist_create 1) [107] 5 true).2
        [107] 9 false).2 ≠ (nvlist_add_uint64 (nvlist_create 1) [107] 5 true).2 ∧
    (nvlist_add_uint64 (nvlist_add_uint64 (nvlist_create 1) [107] 5 true).2
        [107] 9 false).2.nv_size = 16 := by
  refine ⟨by decide, by decide, by decide⟩

set_option maxRecDepth 10000 in
/-- Closed witness for `C6_enomem_postremove`. -/
theorem C6_enomem_postremove_witness :
    ((nvlist_remove (nvlist_create 1) [107] DATA_TYPE_UINT64).1 = ENOENT) ∧
    ((nvlist_add_uint64 (nvlist_create 1) [107] 9 false).1 = ENOMEM) ∧
    (nvlist_add_uint64 (nvlist_create 1) [107] 9 false).2 = nvlist_create 1 :=
  ⟨by decide, by decide,
    (C6_enomem_postremove (nvlist_create 1) [107] 9 [] false).2.2
      (by decide) (by decide)⟩

/-! ### Truncated input and the size walk (C7) -/

/-- A raw wire pair as the big-endian walker sees it. -/
structure RawPair where
  enc : Nat
  dec : Nat
  body : List Nat
deriving Repr, DecidableEq

def rawBytes (rp : RawPair) : List Nat := be32 rp.enc ++ be32 rp.dec ++ rp.body

def rawsBytes : List RawPair → List Nat
  | [] => []
  | r :: rs => rawBytes r ++ rawsBytes rs

def WFraw (rp : RawPair) : Prop :=
  rp.enc ≠ 0 ∧ rp.dec ≠ 0 ∧ rp.enc < 4294967296 ∧ rp.dec < 4294967296 ∧
    rp.body.length + 8 = rp.enc

instance (rp : RawPair) : Decidable (WFraw rp) :=
  inferInstanceAs (Decidable (_ ∧ _))

theorem rawBytes_length (rp : RawPair) (h : rp.body.length + 8 = rp.enc) :
    (rawBytes rp).length = rp.enc := by
  simp [rawBytes, be32]
  omega

theorem rawsBytes_ge_len (rs : List RawPair) :
    rs.length ≤ (rawsBytes rs).length := by
  induction rs with
  | nil => simp [rawsBytes]
  | cons r tl ih =>
    simp [rawsBytes, rawBytes, be32]
    omega

/-- On a stream whose tail is raw pairs with NO terminator, the size walk
runs off the end of the available bytes (the C code would read out of
bounds; the model reports it as the error value). -/
theorem sizeLoop_truncated (stream : List Nat) :
    ∀ (rs : List RawPair) (off fuel : Nat),
      stream.drop off = rawsBytes rs → (∀ r ∈ rs, WFraw r) →
      rs.length < fuel →
      sizeLoop stream off fuel = .error () := by
  intro rs
  induction rs with
  | nil =>
    intro off fuel hdrop _ hfuel
    obtain ⟨f, rfl⟩ : ∃ f, fuel = f + 1 := ⟨fuel - 1, by omega⟩
    have hlen : stream.length ≤ off := by
      have h1 : (stream.drop off).length = stream.length - off := by simp
      rw [hdrop] at h1
      simp [rawsBytes] at h1
      omega
    simp only [sizeLoop, rdBE32at]
    rw [if_neg (by omega : ¬ off + 4 ≤ stream.length)]
  | cons r tl ih =>
    intro off fuel hdrop hWF hfuel
    obtain ⟨f, rfl⟩ : ∃ f, fuel = f + 1 := ⟨fuel - 1, by omega⟩
    obtain ⟨he, hd, hel, hdl, hbl⟩ := hWF r (by simp)
    have hshape : stream.drop off = be32 r.enc ++ (be32 r.dec ++
        (r.body ++ rawsBytes tl)) := by
      simpa [rawsBytes, rawBytes, List.append_assoc] using hdrop
    have hlen : stream.length = off + r.enc + (rawsBytes tl).length := by
      have h1 : (stream.drop off).length = stream.length - off := by simp
      rw [hshape] at h1
      simp [be32] at h1
      omega
    have hrd1 : rdBE32 (stream.drop off) = r.enc := by
      rw [hshape, rdBE32_be32 _ _ hel]
    have hrd2 : rdBE32 (stream.drop (off + 4)) = r.dec := by
      rw [drop_add_offset, hshape]
      have : (be32 r.enc ++ (be32 r.dec ++ (r.body ++ rawsBytes tl))).drop 4 =
          be32 r.dec ++ (r.body ++ rawsBytes tl) := rfl
      rw [this, rdBE32_be32 _ _ hdl]
    have hdropN : stream.drop (off + r.enc) = rawsBytes tl := by
      rw [drop_add_offset, hshape]
      have hsh2 : be32 r.enc ++ (be32 r.dec ++ (r.body ++ rawsBytes tl)) =
          (be32 r.enc ++ be32 r.dec ++ r.body) ++ rawsBytes tl := by
        simp [List.append_assoc]
      rw [hsh2]
      exact drop_len_append _ _ _ (by simp [be32]; omega)
    simp only [sizeLoop, rdBE32at]
    rw [if_pos (by omega : off + 4 ≤ stream.length),
      if_pos (by omega : off + 4 + 4 ≤ stream.length)]
    simp only [hrd1, hrd2]
    rw [if_pos ⟨he, hd⟩]
    exact ih (off + r.enc) f hdropN (fun q hq => hWF q (by simp [hq]))
      (by simp at hfuel; omega)

/-- C7 (amended).  `nvlist_size` performs no bounds checking: on every
stream whose body lacks the double-zero terminator the walk attempts to
read past the end of the supplied bytes (out-of-bounds in C, the model
error value), and `nvlist_import` of such a stream ends in that
out-of-bounds walk rather than in the clean NULL ("MALFORMED") return
reserved for envelope/version/flags rejection. -/
theorem C7_truncated_walks_out_of_bounds (rs : List RawPair)
    (hWF : ∀ r ∈ rs, WFraw r) :
    nvlist_size (be32 NV_VERSION ++ be32 NV_UNIQUE_NAME ++ rawsBytes rs) =
      .error () ∧
    nvlist_import ([1, 1, 0, 0] ++
        (be32 NV_VERSION ++ be32 NV_UNIQUE_NAME ++ rawsBytes rs)) =
      .error .oob := by
  have hsz : nvlist_size (be32 NV_VERSION ++ be32 NV_UNIQUE_NAME ++
      rawsBytes rs) = .error () := by
    unfold nvlist_size
    refine sizeLoop_truncated _ rs 8 _ rfl hWF ?_
    have h1 := rawsBytes_ge_len rs
    simp [be32]
    omega
  refine ⟨hsz, ?_⟩
  unfold nvlist_import
  rw [if_neg (by simp [be32]; try omega)]
  have hdrop4 : ([1, 1, 0, 0] ++ (be32 NV_VERSION ++ be32 NV_UNIQUE_NAME ++
      rawsBytes rs)).drop 4 = be32 NV_VERSION ++ be32 NV_UNIQUE_NAME ++
      rawsBytes rs := rfl
  have hdrop8 : ([1, 1, 0, 0] ++ (be32 NV_VERSION ++ be32 NV_UNIQUE_NAME ++
      rawsBytes rs)).drop 8 = be32 NV_UNIQUE_NAME ++ rawsBytes rs := rfl
  rw [if_pos ?hhead]
  case hhead =>
    refine ⟨rfl, Or.inr rfl, rfl, rfl, ?_, ?_⟩
    · rw [hdrop4]
      have : be32 NV_VERSION ++ be32 NV_UNIQUE_NAME ++ rawsBytes rs =
          be32 NV_VERSION ++ (be32 NV_UNIQUE_NAME ++ rawsBytes rs) := by
        simp [List.append_assoc]
      rw [this, rdBE32_be32 _ _ (by decide)]
    · rw [hdrop8, rdBE32_be32 _ _ (by decide)]
  rw [hdrop4, hsz]

/-- C7 counterexample: a concrete 20-byte stream with a valid envelope,
version and flags, one pair header claiming `encoded_size = 44`, and no
further bytes: the size walk hits the end of the buffer (`.error ()`, an
out-of-bounds read in C), and import ends in `.oob` — not in the clean
`.badHead` NULL return the claim ("returns MALFORMED") describes. -/
theorem C7_counterexample :
    nvlist_size (be32 0 ++ be32 1 ++ be32 44 ++ be32 32) = .error () ∧
    nvlist_import ([1, 1, 0, 0] ++ (be32 0 ++ be32 1 ++ be32 44 ++ be32 32)) =
      .error .oob ∧
    ImpErr.oob ≠ ImpErr.badHead := by
  exact ⟨rfl, rfl, by decide⟩

/-- Closed witness for `C7_truncated_walks_out_of_bounds`. -/
theorem C7_truncated_witness :
    (∀ r ∈ [RawPair.mk 44 32 (List.replicate 36 0)], WFraw r) ∧
    (nvlist_size (be32 NV_VERSION ++ be32 NV_UNIQUE_NAME ++
        rawsBytes [RawPair.mk 44 32 (List.replicate 36 0)]) = .error () ∧
      nvlist_import ([1, 1, 0, 0] ++ (be32 NV_VERSION ++ be32 NV_UNIQUE_NAME ++
        rawsBytes [RawPair.mk 44 32 (List.replicate 36 0)])) = .error .oob) :=
  ⟨by decide,
    C7_truncated_walks_out_of_bounds [RawPair.mk 44 32 (List.replicate 36 0)]
      (by decide)⟩


/-! ### `nvlist_next` (C10) -/

instance (p : Pair) : Decidable (WFpair p) :=
  inferInstanceAs (Decidable (_ ∧ _))

theorem rdU32_cons_zeros (L : List Nat) :
    rdU32 (0 :: 0 :: 0 :: 0 :: L) = 0 := by
  simp [rdU32]

/-- The header walk of `nvlist_next` on a buffer whose suffix at `off` is
a well-formed pair run followed by the 8-byte terminator: it stops
exactly at the terminator, `encSum ps` bytes further. -/
theorem nextLoop_terminator (data : List Nat) :
    ∀ (ps : List Pair) (off fuel : Nat) (rest : List Nat),
      data.drop off = pairsBytes ps ++ (List.replicate 8 0 ++ rest) →
      (∀ p ∈ ps, WFpair p) → ps.length < fuel →
      nextLoop data off fuel = some (off + encSum ps) := by
  intro ps
  induction ps with
  | nil =>
    intro off fuel rest hdrop _ hfuel
    obtain ⟨f, rfl⟩ : ∃ f, fuel = f + 1 := ⟨fuel - 1, by omega⟩
    have hshape : data.drop off = 0 :: 0 :: 0 :: 0 :: (0 :: 0 :: 0 :: 0 :: rest) := by
      simpa [pairsBytes] using hdrop
    have hlen : data.length = off + 8 + rest.length := by
      have h1 : (data.drop off).length = data.length - off := by simp
      rw [hshape] at h1
      simp at h1
      omega
    have hrd1 : rdU32 (data.drop off) = 0 := by
      rw [hshape]
      exact rdU32_cons_zeros _
    have hrd2 : rdU32 (data.drop (off + 4)) = 0 := by
      rw [drop_add_offset, hshape]
      have h2 : (0 :: 0 :: 0 :: 0 :: (0 :: 0 :: 0 :: 0 :: rest)).drop 4 =
          0 :: 0 :: 0 :: 0 :: rest := rfl
      rw [h2]
      exact rdU32_cons_zeros _
    simp only [nextLoop]
    rw [if_pos (by omega : off + 8 ≤ data.length)]
    simp only [hrd1, hrd2]
    rw [if_neg (by simp)]
    simp [encSum]
  | cons p tl ih =>
    intro off fuel rest hdrop hWF hfuel
    obtain ⟨f, rfl⟩ : ∃ f, fuel = f + 1 := ⟨fuel - 1, by omega⟩
    obtain ⟨henc, hdec0, hdec, hnm, hty, hne, hv4⟩ := hWF p (by simp)
    have hdrop1 : data.drop off = pairBytes p ++
        (pairsBytes tl ++ (List.replicate 8 0 ++ rest)) := by
      simpa [pairsBytes, List.append_assoc] using hdrop
    have hshape : data.drop off = le32 p.enc ++ (le32 p.dec ++
        (le32 p.name.length ++ (p.name ++
          (List.replicate (pad4 p.name.length) 0 ++ (le32 p.ptype ++
            (le32 p.nelem ++ (p.vpay ++
              (pairsBytes tl ++ (List.replicate 8 0 ++ rest))))))))) := by
      simpa [pairBytes, List.append_assoc] using hdrop1
    have hlen : data.length =
        off + p.enc + (pairsBytes tl).length + 8 + rest.length := by
      have h1 : (data.drop off).length = data.length - off := by simp
      rw [hdrop1] at h1
      have h2 := pairBytes_length p
      have h3 := pair_enc_ge p
      simp only [List.length_append, List.length_replicate] at h1
      omega
    have hrd1 : rdU32 (data.drop off) = p.enc := by
      rw [hshape, rdU32_le32 _ _ henc]
    have hrd2 : rdU32 (data.drop (off + 4)) = p.dec := by
      rw [drop_add_offset, hshape]
      have h2 : (le32 p.enc ++ (le32 p.dec ++ (le32 p.name.length ++ (p.name ++
          (List.replicate (pad4 p.name.length) 0 ++ (le32 p.ptype ++
            (le32 p.nelem ++ (p.vpay ++
              (pairsBytes tl ++ (List.replicate 8 0 ++ rest)))))))))).drop 4 =
          le32 p.dec ++ (le32 p.name.length ++ (p.name ++
            (List.replicate (pad4 p.name.length) 0 ++ (le32 p.ptype ++
              (le32 p.nelem ++ (p.vpay ++
                (pairsBytes tl ++ (List.replicate 8 0 ++ rest)))))))) := rfl
      rw [h2, rdU32_le32 _ _ hdec]
    have hdropN : data.drop (off + p.enc) =
        pairsBytes tl ++ (List.replicate 8 0 ++ rest) := by
      rw [drop_add_offset, hdrop1]
      exact drop_len_append _ _ _ (pairBytes_length p)
    have henc0 : p.enc ≠ 0 := by
      have := pair_enc_ge p
      omega
    simp only [nextLoop]
    rw [if_pos (by have := pair_enc_ge p; omega : off + 8 ≤ data.length)]
    simp only [hrd1, hrd2]
    rw [if_pos ⟨henc0, by omega⟩]
    rw [ih (off + p.enc) f rest hdropN
      (fun q hq => hWF q (by simp [hq])) (by simp at hfuel; omega)]
    rw [show encSum (p :: tl) = p.enc + encSum tl from rfl, Nat.add_assoc]

/-- C10: `nvlist_next` returns EINVAL exactly on a NULL handle, a NULL
data pointer, or an owned handle (nonzero capacity); a successful walk
happens only on a borrowed view, and on a well-formed borrowed view it
returns 0 and advances the data pointer to just past the 8-byte
terminator. -/
theorem C10_next_semantics :
    (nvlist_next none = (EINVAL, none)) ∧
    (∀ nvl : Nvlist, nvl.nv_data = none →
      nvlist_next (some nvl) = (EINVAL, some nvl)) ∧
    (∀ (nvl : Nvlist) (d : List Nat), nvl.nv_data = some d →
      nvl.nv_asize ≠ 0 → nvlist_next (some nvl) = (EINVAL, some nvl)) ∧
    (∀ nvl : Nvlist, (nvlist_next (some nvl)).1 = 0 → nvl.nv_asize = 0) ∧
    (∀ (nvl : Nvlist) (v fl : Nat) (ps : List Pair) (rest : List Nat),
      nvl.nv_asize = 0 →
      nvl.nv_data = some (le32 v ++ (le32 fl ++
        (pairsBytes ps ++ (List.replicate 8 0 ++ rest)))) →
      (∀ p ∈ ps, WFpair p) →
      nvlist_next (some nvl) = (0, some { nvl with nv_data := some rest })) := by
  refine ⟨rfl, ?_, ?_, ?_, ?_⟩
  · intro nvl hd
    simp only [nvlist_next, hd]
  · intro nvl d hd ha
    simp only [nvlist_next, hd]
    rw [if_pos ha]
  · intro nvl hr
    simp only [nvlist_next] at hr
    cases hd : nvl.nv_data with
    | none =>
      rw [hd] at hr
      simp [EINVAL] at hr
    | some data =>
      rw [hd] at hr
      dsimp only at hr
      by_cases ha : nvl.nv_asize ≠ 0
      · rw [if_pos ha] at hr
        simp [EINVAL] at hr
      · omega
  · intro nvl v fl ps rest ha hd hWF
    simp only [nvlist_next, hd]
    rw [if_neg (by simp [ha])]
    have hdrop8 : (le32 v ++ (le32 fl ++ (pairsBytes ps ++
        (List.replicate 8 0 ++ rest)))).drop 8 =
        pairsBytes ps ++ (List.replicate 8 0 ++ rest) := rfl
    have hfuel : ps.length < (le32 v ++ (le32 fl ++ (pairsBytes ps ++
        (List.replicate 8 0 ++ rest)))).length + 1 := by
      have h1 := encSum_ge_len ps
      simp [le32, pairsBytes_length]
      omega
    rw [nextLoop_terminator _ ps 8 _ rest hdrop8 hWF hfuel]
    dsimp only
    have hrest : (le32 v ++ (le32 fl ++ (pairsBytes ps ++
        (List.replicate 8 0 ++ rest)))).drop (8 + encSum ps + 8) = rest := by
      rw [drop_add_offset, drop_add_offset, hdrop8,
        drop_len_append _ _ _ (pairsBytes_length ps)]
      exact drop_len_append _ _ _ (by simp)
    rw [hrest]

/-- Closed witness for `C10_next_semantics`: a borrowed view over a
serialized one-pair body followed by three slack bytes advances to the
slack bytes with status 0. -/
theorem C10_next_semantics_witness :
    nvlist_next (some
      { nvh_encoding := 1
        nvh_endian := 1
        nvh_reserved1 := 0
        nvh_reserved2 := 0
        nv_asize := 0
        nv_size := 0
        nv_data := some (le32 0 ++ (le32 1 ++
          (pairsBytes [mkU64Pair [97] 5] ++
            (List.replicate 8 0 ++ [7, 7, 7])))) }) =
      (0, some
        { nvh_encoding := 1
          nvh_endian := 1
          nvh_reserved1 := 0
          nvh_reserved2 := 0
          nv_asize := 0
          nv_size := 0
          nv_data := some [7, 7, 7] }) :=
  C10_next_semantics.2.2.2.2
    { nvh_encoding := 1
      nvh_endian := 1
      nvh_reserved1 := 0
      nvh_reserved2 := 0
      nv_asize := 0
      nv_size := 0
      nv_data := some (le32 0 ++ (le32 1 ++
        (pairsBytes [mkU64Pair [97] 5] ++
          (List.replicate 8 0 ++ [7, 7, 7])))) }
    0 1 [mkU64Pair [97] 5] [7, 7, 7] rfl rfl (by decide)

/-! ### Empty list (C9) -/

set_option maxRecDepth 10000 in
/-- C9 counterexample: the freshly created handle's used size is 16, not
the claimed 20 — the 4-byte envelope header is not part of the owned
buffer; it is prepended only on the export path. -/
theorem C9_counterexample :
    (nvlist_create 1).nv_size = 16 ∧ (nvlist_create 1).nv_size ≠ 20 ∧
    (nvlist_create 0).nv_size = 16 := by
  exact ⟨rfl, by decide, rfl⟩

set_option maxRecDepth 10000 in
/-- C9 (amended): a freshly created nvlist has `nv_size = 16` (4-byte
version word, 4-byte flags word, 8-byte terminator; no envelope bytes in
the owned buffer), and importing its exported body with the 4-byte
envelope prepended round-trips to an nvlist equal to the fresh one. -/
theorem C9_empty_size_and_roundtrip :
    (nvlist_create 1).nv_size = 16 ∧
    (nvlist_create 1).nv_data =
      some (le32 NV_VERSION ++ le32 1 ++ List.replicate 8 0) ∧
    (nvlist_export (nvlist_create 1)).1 = 0 ∧
    nvlist_import ([1, 1, 0, 0] ++
        ((nvlist_export (nvlist_create 1)).2.nv_data.getD [])) =
      .ok (nvlist_create 1) := by
  exact ⟨rfl, rfl, rfl, rfl⟩

/-! ### The stored `encoded_size` vs the spec formula (C1) -/

/-- Modelled from the spec: the `encoded_size` formula the specification
prescribes for a freshly added pair — 8-byte pair header, name length
word plus 4-byte-aligned name, type and count words, then `align4 V`
with `V = 8` for a uint64 and `V = 4 + valuelen` for a string. -/
def specPairEncodedSize (N V : Nat) : Nat :=
  4 + 4 + (4 + align4 N) + 4 + 4 + align4 V

set_option maxRecDepth 10000 in
/-- C1: the code does NOT write the spec's `encoded_size`.  For
`add_uint64` with the 1-byte name "a" the stored header word is 44 while
the spec formula gives 32; for `add_string` with name "a" and the 3-byte
value "val" the stored word is 36 while the spec formula gives 32.  The
code inflates the value region to `NV_ALIGN(decoded value size + 1)`
plus an extra word instead of `align4 V`. -/
theorem C1_encoded_size_divergence :
    rdU32 (((nvlist_add_uint64 (nvlist_create 1) [97] 5 true).2.nv_data.getD
      []).drop 8) = 44 ∧
    specPairEncodedSize 1 8 = 32 ∧
    rdU32 (((nvlist_add_string (nvlist_create 1) [97] [118, 97, 108]
      true).2.nv_data.getD []).drop 8) = 36 ∧
    specPairEncodedSize 1 (4 + 3) = 32 ∧
    (44 : Nat) ≠ 32 ∧ (36 : Nat) ≠ 32 := by
  exact ⟨by decide, by decide, by decide, by decide, by decide, by decide⟩

/-! ### Export/import round trip (C2) -/

set_option maxRecDepth 100000 in
/-- C2: the round trip fails on a two-pair list.  Exporting the list
built by `add_uint64("a", 5)` then `add_uint64("b", 6)` reports success,
but importing the exported bytes (with the 4-byte envelope prepended)
ends in an out-of-bounds walk instead of reproducing the list: the
export walker advances by the canonical converted size, which is smaller
than the inflated stored `encoded_size`, lands in the pair's zero slack
and stops, leaving the second pair's header words native little-endian;
the import walker then reads those bytes big-endian as a huge
`encoded_size` and steps far past the end of the buffer.  (The one-pair round trip does succeed.) -/
theorem C2_roundtrip_failure :
    (nvlist_export (nvlist_add_uint64 (nvlist_add_uint64 (nvlist_create 1)
      [97] 5 true).2 [98] 6 true).2).1 = 0 ∧
    nvlist_import ([1, 1, 0, 0] ++
      ((nvlist_export (nvlist_add_uint64 (nvlist_add_uint64 (nvlist_create 1)
        [97] 5 true).2 [98] 6 true).2).2.nv_data.getD [])) = .error .oob ∧
    nvlist_import ([1, 1, 0, 0] ++
      ((nvlist_export (nvlist_add_uint64 (nvlist_create 1)
        [97] 5 true).2).2.nv_data.getD [])) =
      .ok (nvlist_add_uint64 (nvlist_create 1) [97] 5 true).2 := by
  exact ⟨rfl, rfl, rfl⟩


end Nv
